import Mathlib

/-!
Verification of the shrdlite-course-project blocks-world planner.

The TypeScript sources are shallowly embedded below:
* `Graph.ts`        — generic A* search (`aStarSearch`, `distance`, `constructPath`);
* `StateGraph.ts`   — `StateNode` (stacks + held object), `StateNode.compareTo`,
                      `StateGraph.outgoingEdges`, `StateGraph.isValidStack`;
* the compiled interpreter (`part_000`) — `interpretCommand`, `getValidObjects`,
  `pruneObjectsByLocation`, `findObjectIds`, `hasRelation`, `getStack`, `isInStack`,
  `obeyesPhysicalLaws`;
* the `Interpreter.ts` copy of the relation evaluator (`isValidRelation`, which has
  no `rightof` case) and the `Planner.planBetweenStates` synthesizer.

JavaScript runtime failures (reading `.length`/`.form` off `undefined`, indexing an
array with an undefined variable) are modelled with `Except JsErr`; JavaScript `null`
arithmetic coercions (`null - 1 = -1`, `null + 1 = 1`, `null == number` is false) are
modelled explicitly where the source relies on them.  JavaScript arrays push/pop at
the end, so a stack's top is the last element of the corresponding Lean list.

The `collections.ts` library (priority queue, dictionary, set) is not part of the
sources; following the specification it is modelled as a structurally-keyed map and
a queue that pops the least element of the supplied comparator, earliest insertion
first.
-/

namespace Shrdlite

/-- JavaScript runtime failures: `typeError` models a thrown `TypeError`
(property access on `undefined`), `userError` models `throw new Error()`. -/
inductive JsErr where
  | typeError
  | userError
deriving DecidableEq, Repr

deriving instance DecidableEq for Except

/-! ## StateGraph.ts -/

/-- `ObjectDefinition` from `World.ts`: form, size and color of a world object. -/
structure ObjectDefinition where
  form : String
  size : String
  color : String
deriving DecidableEq, Repr

/-- The `objects` table, `{ [s : string] : ObjectDefinition }`, in insertion order. -/
abbrev ObjMap := List (String × ObjectDefinition)

/-- `objects[key]`: `none` models the JavaScript `undefined` for a missing key. -/
def lookupObj (m : ObjMap) (k : String) : Option ObjectDefinition :=
  (m.find? (fun p => p.1 == k)).map (·.2)

/-- `StateNode`: the stacks (`data`, each stack bottom-to-top) and the held
object.  `holding` is assigned separately by `addHolding` and is left
`undefined` (`none`) by `clone`, which copies only the stacks. -/
structure StateNode where
  data : List (List String)
  holding : Option String
deriving DecidableEq, Repr

/-- JavaScript truthiness of the `holding` field (a missing or empty string is falsy). -/
def jsTruthyStr : Option String → Bool
  | none => false
  | some s => s != ""

/-- The loop of `StateNode.compareTo`: walk `this.data`; a column whose length or
some position differs gives `-1`; exhausting `this.data` gives `0`.  Reading
`other.data[i].length` when `other` has fewer columns throws (`typeError`).
Two equal-length stacks differ at some position exactly when they are unequal
as lists, which is how the inner positional loop is rendered. -/
def compareToAux : List (List String) → List (List String) → Except JsErr Int
  | [], _ => .ok 0
  | _ :: _, [] => .error .typeError
  | s :: xs, t :: ys =>
    if s.length = t.length then
      if s = t then compareToAux xs ys else .ok (-1)
    else .ok (-1)

/-- `StateNode.compareTo` compares only the stacks; `holding` is never read. -/
def StateNode.compareTo (a b : StateNode) : Except JsErr Int :=
  compareToAux a.data b.data

/-- `StateNode.clone`: copies the stacks; `holding` is not copied (stays `undefined`). -/
def StateNode.clone (n : StateNode) : StateNode :=
  ⟨n.data, none⟩

/-- `StateGraph.compareNodes` simply delegates to `compareTo`. -/
def compareNodesSG (a b : StateNode) : Except JsErr Int :=
  a.compareTo b

/-- `StateGraph.isValidStack`.  The argument is an `Option` because the source
passes `next.data[j]` with an undefined `j` in the holding branch, and
`undefined.length` throws.  A missing object definition for either of the two
top identifiers also throws when its `.size` is read. -/
def isValidStack (objects : ObjMap) : Option (List String) → Except JsErr Bool
  | none => .error .typeError
  | some stack =>
    if stack.length ≤ 1 then .ok true
    else
      match lookupObj objects (stack.getD (stack.length - 1) ""),
            lookupObj objects (stack.getD (stack.length - 2) "") with
      | some a, some b =>
        let cond1 := a.size == "large" && b.size == "small"
        let cond2 := b.form == "ball"
        let cond3 := a.form == "ball" && b.form == "table"
        let cond4 := b.form == "box" && b.size == a.size &&
          (a.form == "pyramid" || a.form == "plank" || a.form == "box")
        let cond5 := a.form == "box" && a.size == "small" &&
          (b.form == "pyramid" || (b.form == "brick" && b.size == "small"))
        let cond6 := a.form == "box" && a.size == "large" &&
          (b.form == "pyramid" && b.size == "large")
        .ok (!(cond1 || cond2 || cond3 || cond4 || cond5 || cond6))
      | _, _ => .error .typeError

/-- An edge of the generic `Graph` interface. -/
structure Edge (α : Type) where
  «from» : α
  «to» : α
  cost : Nat
deriving DecidableEq, Repr

/-- `next.data[j].push(next.data[i].pop())`: move the top of stack `i` onto
stack `j` (for `i ≠ j`, as guarded by the caller). -/
def moveTop (d : List (List String)) (i j : Nat) : List (List String) :=
  match (d.getD i []).getLast? with
  | none => d
  | some v =>
    let d1 := d.set i (d.getD i []).dropLast
    d1.set j (d1.getD j [] ++ [v])

/-- Inner `j` loop of the non-holding branch of `StateGraph.outgoingEdges`. -/
def innerEdges (objects : ObjMap) (node : StateNode) (i : Nat) :
    List Nat → Except JsErr (List (Edge StateNode))
  | [] => .ok []
  | j :: js =>
    if i = j || (node.data.getD i []).isEmpty then innerEdges objects node i js
    else
      let d := moveTop node.data i j
      match isValidStack objects (some (d.getD j [])) with
      | .error e => .error e
      | .ok true => do
        let rest ← innerEdges objects node i js
        .ok (⟨node, ⟨d, none⟩, 1⟩ :: rest)
      | .ok false => innerEdges objects node i js

/-- Outer `i` loop of the non-holding branch of `StateGraph.outgoingEdges`. -/
def outerEdges (objects : ObjMap) (node : StateNode) :
    List Nat → Except JsErr (List (Edge StateNode))
  | [] => .ok []
  | i :: rest => do
    let here ← innerEdges objects node i (List.range node.data.length)
    let more ← outerEdges objects node rest
    .ok (here ++ more)

/-- `StateGraph.outgoingEdges`.  In the holding branch the source validates
`next.data[j]` where `j` is the hoisted loop variable of the *other* branch and
is still `undefined`, so `isValidStack` receives `undefined` and throws on the
very first iteration; with no stacks the loop body never runs. -/
def outgoingEdgesSG (objects : ObjMap) (node : StateNode) :
    Except JsErr (List (Edge StateNode)) :=
  if jsTruthyStr node.holding then
    match node.data with
    | [] => .ok []
    | _ :: _ => (isValidStack objects none).map (fun _ => [])
  else outerEdges objects node (List.range node.data.length)

/-! ## Interpreter (compiled `part_000` version, plus the `Graph.ts` relation evaluator) -/

/-- The parsed command tree.  A `Parser.Object` is either a simple description
with optional color/size/form filters, or an object qualified by a location.
In the source a location is `{relation, entity}` and an entity wraps an object
(its quantifier is never read by the embedded code); both wrappers are inlined
here so the tree is a single inductive: `relative obj rel ent` stands for
`{object: obj, location: {relation: rel, entity: {object: ent}}}`. -/
inductive PObject where
  | simple (form size color : Option String)
  | relative (obj : PObject) (relation : String) (entity : PObject)
deriving DecidableEq, Repr

/-- A `Parser.Location`: a relation and its entity's object. -/
structure PLocation where
  relation : String
  entity : PObject
deriving DecidableEq, Repr

/-- The `WorldState` fields read by the interpreter: the stacks and the object
definitions table (`holding` and `arm` are not consulted by this code). -/
structure WorldState where
  «stacks» : List (List String)
  objects : ObjMap
deriving DecidableEq

/-- `Array.prototype.indexOf`: first index of `x`, or `-1`. -/
def jsIndexOf : List String → String → Int
  | [], _ => -1
  | a :: rest, x =>
    if a == x then 0
    else
      let r := jsIndexOf rest x
      if r == -1 then -1 else r + 1

/-- `isInStack`: the object occurs in the flattened stacks. -/
def isInStack (stks : List (List String)) (object : String) : Bool :=
  (stks.flatten).contains object

/-- Loop of `getStack` with the running index. -/
def getStackAux : List (List String) → String → Nat → Option Nat
  | [], _, _ => none
  | s :: rest, x, i => if s.contains x then some i else getStackAux rest x (i + 1)

/-- `getStack`: the index of the first stack containing the object, else the
JavaScript `null`, modelled as `none`. -/
def getStack (stks : List (List String)) (object : String) : Option Nat :=
  getStackAux stks object 0

/-- JavaScript `x - 1` where `x` is a stack index or `null` (`null` coerces to `0`). -/
def jsSubOne (o : Option Nat) : Int :=
  (match o with | none => (0 : Int) | some n => (n : Int)) - 1

/-- JavaScript `x + 1` where `x` is a stack index or `null` (`null` coerces to `0`). -/
def jsAddOne (o : Option Nat) : Int :=
  (match o with | none => (0 : Int) | some n => (n : Int)) + 1

/-- JavaScript loose equality between a number and a stack index that may be
`null`: `null == number` is false. -/
def jsEqIntStack (x : Int) (o : Option Nat) : Bool :=
  match o with
  | none => false
  | some n => x == (n : Int)

/-- `hasRelation` from the compiled interpreter (`part_000`), which includes a
`rightof` case.  `above`, `below`, `ontop` and `inside` index
`state.stacks[getStack(parent)]`; when the parent is in no stack that is
`stacks[null]`, i.e. `undefined`, and the following `.indexOf` throws. -/
def hasRelation (stks : List (List String)) (relation parent child : String) :
    Except JsErr Bool :=
  match relation with
  | "beside" =>
    .ok (jsEqIntStack (jsSubOne (getStack stks parent)) (getStack stks child) ||
         jsEqIntStack (jsSubOne (getStack stks child)) (getStack stks parent))
  | "leftof" =>
    .ok (jsEqIntStack (jsSubOne (getStack stks child)) (getStack stks parent))
  | "rightof" =>
    .ok (jsEqIntStack (jsAddOne (getStack stks child)) (getStack stks parent))
  | "above" =>
    match getStack stks parent with
    | none => .error .typeError
    | some i =>
      let si := stks.getD i []
      .ok (jsIndexOf si parent > jsIndexOf si child)
  | "below" =>
    match getStack stks parent with
    | none => .error .typeError
    | some i =>
      let si := stks.getD i []
      .ok (jsIndexOf si parent < jsIndexOf si child)
  | "ontop" =>
    match getStack stks parent with
    | none => .error .typeError
    | some i =>
      let si := stks.getD i []
      .ok ((jsIndexOf si parent == jsIndexOf si child + 1) &&
           (jsIndexOf si child != -1 || child == "floor"))
  | "inside" =>
    match getStack stks parent with
    | none => .error .typeError
    | some i =>
      let si := stks.getD i []
      .ok ((jsIndexOf si parent == jsIndexOf si child + 1) &&
           (jsIndexOf si child != -1 || child == "floor"))
  | _ => .ok false

/-- `isValidRelation` from the `Interpreter` module embedded in `Graph.ts`: the
same switch but with *no* `rightof` case, so `rightof` falls through to the
final `return false`. -/
def isValidRelation (stks : List (List String)) (relation parent child : String) :
    Except JsErr Bool :=
  match relation with
  | "beside" =>
    .ok (jsEqIntStack (jsSubOne (getStack stks parent)) (getStack stks child) ||
         jsEqIntStack (jsSubOne (getStack stks child)) (getStack stks parent))
  | "leftof" =>
    .ok (jsEqIntStack (jsSubOne (getStack stks child)) (getStack stks parent))
  | "above" =>
    match getStack stks parent with
    | none => .error .typeError
    | some i =>
      let si := stks.getD i []
      .ok (jsIndexOf si parent > jsIndexOf si child)
  | "below" =>
    match getStack stks parent with
    | none => .error .typeError
    | some i =>
      let si := stks.getD i []
      .ok (jsIndexOf si parent < jsIndexOf si child)
  | "ontop" =>
    match getStack stks parent with
    | none => .error .typeError
    | some i =>
      let si := stks.getD i []
      .ok ((jsIndexOf si parent == jsIndexOf si child + 1) &&
           (jsIndexOf si child != -1 || child == "floor"))
  | "inside" =>
    match getStack stks parent with
    | none => .error .typeError
    | some i =>
      let si := stks.getD i []
      .ok ((jsIndexOf si parent == jsIndexOf si child + 1) &&
           (jsIndexOf si child != -1 || child == "floor"))
  | _ => .ok false

/-- `findObjectIds`: keys of all objects matching the description's filters, in
table order.  A relative object has no `form`/`size`/`color` properties, so in
the source every filter reads `undefined` and passes, returning every key. -/
def findObjectIds (objects : ObjMap) : PObject → List String
  | .simple form size color =>
    if form = some "floor" then ["floor"]
    else
      (objects.filter (fun kv =>
        (match color with | none => true | some c => c == kv.2.color) &&
        (match form with
         | none => true
         | some f => if f == "anyform" then true else f == kv.2.form) &&
        (match size with | none => true | some s => s == kv.2.size))).map (fun kv => kv.1)
  | .relative _ _ _ => objects.map (fun kv => kv.1)

/-- Inner `parents.forEach` of `pruneObjectsByLocation`: keep `p` once for each
pair whose relation holds; a `hasRelation` throw propagates. -/
def parentLoop (stks : List (List String)) (rel c : String) :
    List String → Except JsErr (List String)
  | [] => .ok []
  | p :: ps => do
    let keep ← hasRelation stks rel p c
    let rest ← parentLoop stks rel c ps
    .ok (if keep then p :: rest else rest)

/-- Outer `children.forEach` of `pruneObjectsByLocation`. -/
def pruneLoop (stks : List (List String)) (rel : String) :
    List String → List String → Except JsErr (List String)
  | [], _ => .ok []
  | c :: cs, parents => do
    let here ← parentLoop stks rel c parents
    let rest ← pruneLoop stks rel cs parents
    .ok (here ++ rest)

/-- `getValidObjects`: a located entity is resolved by resolving the location's
entity and pruning the inner object's matches with the relation (the body of
`pruneObjectsByLocation`, inlined because the two functions are mutually
recursive in the source); a simple entity keeps matches present in some stack
or equal to the floor sentinel. -/
def getValidObjects (st : WorldState) : PObject → Except JsErr (List String)
  | .simple f s c =>
    .ok ((findObjectIds st.objects (.simple f s c)).filter
      (fun o => isInStack st.stacks o || o == "floor"))
  | .relative o rel ent => do
    let children ← getValidObjects st ent
    pruneLoop st.stacks rel children (findObjectIds st.objects o)

/-- `pruneObjectsByLocation`: resolve the location's entity, then keep each
parent once per child for which the relation holds. -/
def pruneObjectsByLocation (st : WorldState) (loc : PLocation) (parents : List String) :
    Except JsErr (List String) := do
  let children ← getValidObjects st loc.entity
  pruneLoop st.stacks loc.relation children parents

/-- A goal `Literal`. -/
structure Lit where
  polarity : Bool
  relation : String
  args : List String
deriving DecidableEq, Repr

abbrev Conjunction := List Lit

abbrev DNFFormula := List Conjunction

/-- `obeyesPhysicalLaws` from the compiled interpreter.  `a == b` is JavaScript
reference equality of the two table entries (true when both keys are missing or
equal); reading `.form` off a missing entry throws. -/
def obeyesPhysicalLaws (st : WorldState) (literal : Lit) : Except JsErr Bool :=
  let arg0 := literal.args.getD 0 ""
  let arg1 := literal.args.getD 1 ""
  if arg1 == "floor" && literal.relation == "ontop" then .ok true
  else
    let a := lookupObj st.objects arg0
    let b := lookupObj st.objects arg1
    let aEqB : Bool := match a, b with
      | none, none => true
      | some _, some _ => arg0 == arg1
      | _, _ => false
    if aEqB then .ok false
    else
      match a with
      | none => .error .typeError
      | some ad =>
        if ad.form == "floor" then .ok false
        else if literal.relation == "inside" || literal.relation == "ontop" then
          match b with
          | none => .error .typeError
          | some bd =>
            if (literal.relation == "inside" && bd.form == "box") ||
               (literal.relation == "ontop" && bd.form != "box") then
              let cond1 := ad.size == "large" && bd.size == "small"
              let cond2 := bd.form == "ball"
              let cond3 := ad.form == "ball" && bd.form == "table"
              let cond4 := bd.form == "box" && bd.size == ad.size &&
                (ad.form == "pyramid" || ad.form == "plank" || ad.form == "box")
              let cond5 := ad.form == "box" && ad.size == "small" &&
                (bd.form == "pyramid" || (bd.form == "brick" && bd.size == "small"))
              let cond6 := ad.form == "box" && ad.size == "large" &&
                (bd.form == "pyramid" && bd.size == "large")
              .ok (!(cond1 || cond2 || cond3 || cond4 || cond5 || cond6))
            else .ok true
        else .ok true

/-- A parsed command: `take` or `move` (with a target location). -/
inductive Command where
  | take (entity : PObject)
  | move (entity : PObject) (location : PLocation)
deriving DecidableEq

/-- The `take` branch's `forEach`: one `holding(id)` conjunction per candidate,
skipping the floor sentinel. -/
def takeLoop : List String → DNFFormula
  | [] => []
  | id :: ids =>
    if id != "floor" then [Lit.mk true "holding" [id]] :: takeLoop ids
    else takeLoop ids

/-- Inner `ids_b.forEach` of the `move` branch. -/
def moveInner (st : WorldState) (rel idA : String) :
    List String → Except JsErr DNFFormula
  | [] => .ok []
  | b :: bs => do
    let lit : Lit := ⟨true, rel, [idA, b]⟩
    let keep ← obeyesPhysicalLaws st lit
    let rest ← moveInner st rel idA bs
    .ok (if keep then [lit] :: rest else rest)

/-- Outer `ids_a.forEach` of the `move` branch. -/
def moveOuter (st : WorldState) (rel : String) :
    List String → List String → Except JsErr DNFFormula
  | [], _ => .ok []
  | a :: as_, idsB => do
    let here ← moveInner st rel a idsB
    let rest ← moveOuter st rel as_ idsB
    .ok (here ++ rest)

/-- `interpretCommand` from the compiled interpreter: resolve the entity (and,
for `move`, the location's entity), build the DNF formula, and
`throw new Error()` when it is empty. -/
def interpretCommand (cmd : Command) (st : WorldState) : Except JsErr DNFFormula :=
  match cmd with
  | .take ent => do
    let ids ← getValidObjects st ent
    let interp := takeLoop ids
    if interp.isEmpty then .error .userError else .ok interp
  | .move ent loc => do
    let idsA ← getValidObjects st ent
    let idsB ← getValidObjects st loc.entity
    let interp ← moveOuter st loc.relation idsA idsB
    if interp.isEmpty then .error .userError else .ok interp

/-! ## Planner.planBetweenStates (`Interpreter.ts`) -/

/-- The loop locating `picStack`/`putStack`: the last index where `from` is
longer than `to` and the last index where it is shorter (both start at `0`).
Reading `to[i].length` past the end of `to` throws. -/
def pickPut : List (List String) → List (List String) → Nat → Nat × Nat →
    Except JsErr (Nat × Nat)
  | [], _, _, acc => .ok acc
  | _ :: _, [], _, _ => .error .typeError
  | f :: fs, t :: ts, i, (pic, put) =>
    if f.length > t.length then pickPut fs ts (i + 1) (i, put)
    else if f.length < t.length then pickPut fs ts (i + 1) (pic, i)
    else pickPut fs ts (i + 1) (pic, put)

/-- `planBetweenStates`.  `armPosition` is re-read from the original
`state.arm` on every call.  After the arm-movement loop its counter `i` equals
`|armPosition − picStack|`, and the source then pops `from[i]` — the stack at
that *counter* value, not at `picStack`.  Popping a missing or empty stack
yields `undefined`, and the subsequent `state.objects[obj].form` throws.  The
string pushed between pick and drop is `("Moving arm " + dir) == "r" ? ...`,
which is always `"left"` by operator precedence. -/
def planBetweenStates (stateArm : Nat) (objects : ObjMap)
    (s1 s2 : List (List String)) (plan0 : List String) : Except JsErr (List String) := do
  let (pic, put) ← pickPut s1 s2 0 (0, 0)
  let armPosition := stateArm
  let moveDir := if armPosition < pic then "r" else "l"
  let dist1 := max armPosition pic - min armPosition pic
  let steps1 := List.replicate dist1 moveDir
  let iFinal := dist1
  match s1[iFinal]? with
  | none => .error .typeError
  | some sFinal =>
    match sFinal.getLast? with
    | none => .error .typeError
    | some obj =>
      match lookupObj objects obj with
      | none => .error .typeError
      | some od =>
        let moveDir2 := if pic < put then "r" else "l"
        let dist2 := max pic put - min pic put
        let narr := if ("Moving arm " ++ moveDir2) == "r" then "right" else "left"
        .ok (plan0 ++ steps1 ++ ["Picking up the " ++ od.form, "p"] ++ [narr] ++
             List.replicate dist2 moveDir2 ++ ["Dropping the " ++ od.form, "d"])

/-! ## Helper lemmas about `compareTo` -/

/-- With equally many columns, the `compareTo` loop answers `0` exactly when
the stack lists coincide. -/
theorem compareToAux_eq_zero_iff :
    ∀ xs ys : List (List String), xs.length = ys.length →
      (compareToAux xs ys = .ok 0 ↔ xs = ys) := by
  intro xs
  induction xs with
  | nil =>
    intro ys h
    cases ys with
    | nil => simp [compareToAux]
    | cons y ys => simp at h
  | cons x xs ih =>
    intro ys h
    cases ys with
    | nil => simp at h
    | cons y ys =>
      simp only [List.length_cons, Nat.add_right_cancel_iff] at h
      by_cases hxy : x = y
      · subst hxy
        simpa [compareToAux] using ih ys h
      · by_cases hlen : x.length = y.length
        · simp [compareToAux, hlen, hxy]
        · simp [compareToAux, hlen, hxy]

/-- With equally many columns, the `compareTo` loop never throws and only ever
answers `-1` or `0`. -/
theorem compareToAux_neg_or_zero :
    ∀ xs ys : List (List String), xs.length = ys.length →
      compareToAux xs ys = .ok (-1) ∨ compareToAux xs ys = .ok 0 := by
  intro xs
  induction xs with
  | nil =>
    intro ys h
    right
    rfl
  | cons x xs ih =>
    intro ys h
    cases ys with
    | nil => simp at h
    | cons y ys =>
      simp only [List.length_cons, Nat.add_right_cancel_iff] at h
      by_cases hxy : x = y
      · subst hxy
        simpa [compareToAux] using ih ys h
      · by_cases hlen : x.length = y.length
        · simp [compareToAux, hlen, hxy]
        · simp [compareToAux, hlen]

/-- Claim C4 (corrected): `StateNode.compareTo` reads only the stacks.  With
equally many columns it answers `0` iff the stacks agree per column and per
position; the `holding` field is ignored, so two configurations with identical
stacks that differ only in the held object still compare equal. -/
theorem c4_compareTo_ignores_holding (a b : StateNode)
    (h : a.data.length = b.data.length) :
    (StateNode.compareTo a b = .ok 0 ↔ a.data = b.data) ∧
    StateNode.compareTo a b = StateNode.compareTo ⟨a.data, none⟩ ⟨b.data, none⟩ :=
  ⟨compareToAux_eq_zero_iff a.data b.data h, rfl⟩

/-- Claim C4, counterexample to the claim as stated: two configurations with
identical stacks but different held objects compare equal (`0`), whereas the
claim requires the comparison to hold only when the `holding` fields agree. -/
theorem c4_counterexample :
    StateNode.compareTo ⟨[["x"]], some "h1"⟩ ⟨[["x"]], some "h2"⟩ = .ok 0 ∧
    (StateNode.mk [["x"]] (some "h1")).holding ≠ (StateNode.mk [["x"]] (some "h2")).holding ∧
    (StateNode.mk [["x"]] (some "h1")).data = (StateNode.mk [["x"]] (some "h2")).data := by
  refine ⟨rfl, ?_, rfl⟩
  decide

/-- Witness for `c4_compareTo_ignores_holding` at a concrete pair of nodes. -/
theorem c4_witness :
    (StateNode.mk [["x"]] (some "h")).data.length = (StateNode.mk [["y"]] none).data.length ∧
    ((StateNode.compareTo ⟨[["x"]], some "h"⟩ ⟨[["y"]], none⟩ = .ok 0 ↔
        (StateNode.mk [["x"]] (some "h")).data = (StateNode.mk [["y"]] none).data) ∧
      StateNode.compareTo ⟨[["x"]], some "h"⟩ ⟨[["y"]], none⟩ =
        StateNode.compareTo ⟨[["x"]], none⟩ ⟨[["y"]], none⟩) :=
  ⟨rfl, c4_compareTo_ignores_holding ⟨[["x"]], some "h"⟩ ⟨[["y"]], none⟩ rfl⟩

/-- Claim C10 (confirmed): on nodes with equally many stacks, `compareTo`
(the graph's `compareNodes`) only returns `-1` or `0`, never a positive value,
and on structurally different stack contents both orientations return `-1`, so
the comparator is not antisymmetric and defines no order. -/
theorem c10_compareTo_no_positive (a b : StateNode)
    (h : a.data.length = b.data.length) :
    (compareNodesSG a b = .ok (-1) ∨ compareNodesSG a b = .ok 0) ∧
    (a.data ≠ b.data →
      compareNodesSG a b = .ok (-1) ∧ compareNodesSG b a = .ok (-1)) := by
  constructor
  · exact compareToAux_neg_or_zero a.data b.data h
  · intro hne
    constructor
    · rcases compareToAux_neg_or_zero a.data b.data h with h1 | h1
      · exact h1
      · exact absurd ((compareToAux_eq_zero_iff a.data b.data h).mp h1) hne
    · rcases compareToAux_neg_or_zero b.data a.data h.symm with h1 | h1
      · exact h1
      · exact absurd ((compareToAux_eq_zero_iff b.data a.data h.symm).mp h1).symm hne

/-- Witness for `c10_compareTo_no_positive` at a concrete pair of nodes. -/
theorem c10_witness :
    (StateNode.mk [["x"]] none).data.length = (StateNode.mk [["y"]] none).data.length ∧
    (StateNode.mk [["x"]] none).data ≠ (StateNode.mk [["y"]] none).data ∧
    compareNodesSG ⟨[["x"]], none⟩ ⟨[["y"]], none⟩ = .ok (-1) ∧
    compareNodesSG ⟨[["y"]], none⟩ ⟨[["x"]], none⟩ = .ok (-1) := by
  have h := (c10_compareTo_no_positive ⟨[["x"]], none⟩ ⟨[["y"]], none⟩ rfl).2 (by decide)
  exact ⟨rfl, by decide, h.1, h.2⟩

/-- Claim C5 (code bug): for every configuration that holds an object and has
at least one stack, `StateGraph.outgoingEdges` throws instead of producing the
place-successors, because the holding branch validates `next.data[j]` with the
undefined hoisted loop variable `j` of the other branch. -/
theorem c5_outgoingEdges_crash (objects : ObjMap) (node : StateNode)
    (h1 : jsTruthyStr node.holding = true) (h2 : node.data ≠ []) :
    outgoingEdgesSG objects node = .error .typeError := by
  unfold outgoingEdgesSG
  rw [h1]
  cases hd : node.data with
  | nil => exact absurd hd h2
  | cons x xs => simp [isValidStack, Except.map]

/-- Witness for `c5_outgoingEdges_crash`: a concrete holding configuration. -/
theorem c5_witness :
    jsTruthyStr (StateNode.mk [["b"]] (some "a")).holding = true ∧
    (StateNode.mk [["b"]] (some "a")).data ≠ [] ∧
    outgoingEdgesSG [] ⟨[["b"]], some "a"⟩ = .error .typeError :=
  ⟨rfl, by decide, c5_outgoingEdges_crash [] ⟨[["b"]], some "a"⟩ rfl (by decide)⟩

/-! ## Helper lemmas about `jsIndexOf` and `getStack` -/

theorem jsIndexOf_ge_neg_one : ∀ (s : List String) (x : String), -1 ≤ jsIndexOf s x
  | [], x => by simp [jsIndexOf]
  | a :: rest, x => by
    have ih := jsIndexOf_ge_neg_one rest x
    simp only [jsIndexOf]
    split
    · omega
    · split
      · omega
      · omega

theorem jsIndexOf_eq_neg_one_iff :
    ∀ (s : List String) (x : String), jsIndexOf s x = -1 ↔ x ∉ s
  | [], x => by simp [jsIndexOf]
  | a :: rest, x => by
    have ih := jsIndexOf_eq_neg_one_iff rest x
    have hge := jsIndexOf_ge_neg_one rest x
    simp only [jsIndexOf]
    by_cases hax : a == x
    · have : a = x := by simpa using hax
      subst this
      simp [hax]
    · have hne : ¬ a = x := by simpa using hax
      simp only [hax, Bool.false_eq_true, if_false]
      by_cases hr : jsIndexOf rest x == -1
      · have hr1 : jsIndexOf rest x = -1 := by simpa using hr
        rw [if_pos hr]
        refine iff_of_true rfl ?_
        intro hmem
        rcases List.mem_cons.mp hmem with h | h
        · exact hne h.symm
        · exact (ih.mp hr1) h
      · have hr1 : ¬ jsIndexOf rest x = -1 := by simpa using hr
        have hmem : x ∈ rest := by
          by_contra hnm
          exact hr1 (ih.mpr hnm)
        rw [if_neg hr]
        refine iff_of_false ?_ ?_
        · omega
        · intro hnm
          exact hnm (List.mem_cons_of_mem a hmem)

theorem jsIndexOf_nonneg (s : List String) (x : String) (h : x ∈ s) :
    0 ≤ jsIndexOf s x := by
  have h1 := jsIndexOf_ge_neg_one s x
  have h2 : ¬ jsIndexOf s x = -1 := fun hc => absurd h ((jsIndexOf_eq_neg_one_iff s x).mp hc)
  omega

theorem getStackAux_none_iff :
    ∀ (stks : List (List String)) (x : String) (k : Nat),
      getStackAux stks x k = none ↔ ∀ s ∈ stks, x ∉ s
  | [], x, k => by simp [getStackAux]
  | s :: rest, x, k => by
    have ih := getStackAux_none_iff rest x (k + 1)
    simp only [getStackAux]
    by_cases hc : s.contains x
    · have : x ∈ s := by simpa using hc
      simp [hc, this]
    · have hnm : x ∉ s := by simpa using hc
      simp [hc, ih, hnm]

theorem getStack_none_iff (stks : List (List String)) (x : String) :
    getStack stks x = none ↔ ∀ s ∈ stks, x ∉ s :=
  getStackAux_none_iff stks x 0

theorem getStack_none_notMem (stks : List (List String)) (x : String)
    (h : getStack stks x = none) (i : Nat) : x ∉ stks.getD i [] := by
  have hall := (getStack_none_iff stks x).mp h
  by_cases hi : i < stks.length
  · have : stks.getD i [] = stks[i] := by
      simp [List.getD_eq_getElem?_getD, List.getElem?_eq_getElem hi]
    rw [this]
    exact hall _ (stks.getElem_mem hi)
  · have : stks.getD i [] = [] := by
      simp [List.getD_eq_getElem?_getD, List.getElem?_eq_none (by omega : stks.length ≤ i)]
    rw [this]
    simp

theorem getStackAux_some_mem :
    ∀ (stks : List (List String)) (x : String) (k i : Nat),
      getStackAux stks x k = some i → k ≤ i ∧ x ∈ stks.getD (i - k) []
  | [], x, k, i => by simp [getStackAux]
  | s :: rest, x, k, i => by
    intro h
    simp only [getStackAux] at h
    by_cases hc : s.contains x
    · simp only [hc, if_true, Option.some.injEq] at h
      subst h
      have : x ∈ s := by simpa using hc
      simpa using this
    · simp only [hc, Bool.false_eq_true, if_false] at h
      obtain ⟨h1, h2⟩ := getStackAux_some_mem rest x (k + 1) i h
      refine ⟨by omega, ?_⟩
      have heq : i - k = (i - (k + 1)) + 1 := by omega
      rw [heq]
      simpa using h2

theorem getStack_some_mem (stks : List (List String)) (x : String) (i : Nat)
    (h : getStack stks x = some i) : x ∈ stks.getD i [] := by
  have := getStackAux_some_mem stks x 0 i h
  simpa using this.2

theorem jsEqIntStack_neg_one (o : Option Nat) : jsEqIntStack (-1) o = false := by
  cases o with
  | none => rfl
  | some n =>
    simp only [jsEqIntStack]
    rw [beq_eq_false_iff_ne]
    omega

theorem jsEqIntStack_none (x : Int) : jsEqIntStack x none = false := rfl

/-! ## Claims C7 and C8: the relation evaluators -/

/-- Claim C7 (corrected): behaviour of the `Graph.ts` relation evaluator when
an argument is not placed in any stack.  With an unplaced *parent*, `beside`,
`leftof` and `rightof` answer `false` but `above`, `below`, `ontop` and
`inside` throw (the code indexes `stacks[null]`).  With an unplaced *child* and
a placed parent, `beside`, `leftof`, `rightof` and `below` answer `false`, but
`above` answers `true` (the child's `indexOf` is `-1`), and `ontop`/`inside`
answer true exactly when the parent is at the bottom of its stack and the child
is the floor sentinel. -/
theorem c7_unplaced_behavior (stks : List (List String)) (p c : String) :
    (getStack stks p = none →
      isValidRelation stks "beside" p c = .ok false ∧
      isValidRelation stks "leftof" p c = .ok false ∧
      isValidRelation stks "rightof" p c = .ok false ∧
      isValidRelation stks "above" p c = .error .typeError ∧
      isValidRelation stks "below" p c = .error .typeError ∧
      isValidRelation stks "ontop" p c = .error .typeError ∧
      isValidRelation stks "inside" p c = .error .typeError) ∧
    (getStack stks c = none →
      isValidRelation stks "beside" p c = .ok false ∧
      isValidRelation stks "leftof" p c = .ok false ∧
      isValidRelation stks "rightof" p c = .ok false ∧
      ∀ i, getStack stks p = some i →
        isValidRelation stks "above" p c = .ok true ∧
        isValidRelation stks "below" p c = .ok false ∧
        isValidRelation stks "ontop" p c =
          .ok ((jsIndexOf (stks.getD i []) p == 0) && (c == "floor")) ∧
        isValidRelation stks "inside" p c =
          .ok ((jsIndexOf (stks.getD i []) p == 0) && (c == "floor"))) := by
  constructor
  · intro hp
    refine ⟨?_, ?_, ?_, ?_, ?_, ?_, ?_⟩
    · simp [isValidRelation, hp, jsSubOne, jsEqIntStack_neg_one, jsEqIntStack_none]
    · simp [isValidRelation, hp, jsEqIntStack_none]
    · simp [isValidRelation]
    · simp [isValidRelation, hp]
    · simp [isValidRelation, hp]
    · simp [isValidRelation, hp]
    · simp [isValidRelation, hp]
  · intro hc
    refine ⟨?_, ?_, ?_, ?_⟩
    · simp [isValidRelation, hc, jsSubOne, jsEqIntStack_neg_one, jsEqIntStack_none]
    · simp [isValidRelation, hc, jsSubOne, jsEqIntStack_neg_one]
    · simp [isValidRelation]
    · intro i hp
      have hpm : p ∈ stks.getD i [] := getStack_some_mem stks p i hp
      have hpos : 0 ≤ jsIndexOf (stks.getD i []) p := jsIndexOf_nonneg _ p hpm
      have hcm : c ∉ stks.getD i [] := getStack_none_notMem stks c hc i
      have hneg : jsIndexOf (stks.getD i []) c = -1 :=
        (jsIndexOf_eq_neg_one_iff _ c).mpr hcm
      refine ⟨?_, ?_, ?_, ?_⟩
      · simp only [isValidRelation, hp]
        have hgt : jsIndexOf (stks.getD i []) p > jsIndexOf (stks.getD i []) c := by omega
        exact congrArg Except.ok (decide_eq_true hgt)
      · simp only [isValidRelation, hp]
        have hlt : ¬ jsIndexOf (stks.getD i []) p < jsIndexOf (stks.getD i []) c := by omega
        exact congrArg Except.ok (decide_eq_false hlt)
      · simp only [isValidRelation, hp, hneg]
        norm_num
      · simp only [isValidRelation, hp, hneg]
        norm_num

/-- Claim C7, counterexample to the claim as stated: with `c` unplaced (for
example held), `above(a, c)` evaluates `true` rather than `false`, and
`above(c, a)` throws rather than evaluating `false`. -/
theorem c7_counterexample :
    getStack [["a"]] "c" = none ∧
    isValidRelation [["a"]] "above" "a" "c" = .ok true ∧
    isValidRelation [["a"]] "above" "c" "a" = .error .typeError := by
  refine ⟨rfl, ?_, rfl⟩
  rfl

/-- Witness for `c7_unplaced_behavior` at a concrete configuration. -/
theorem c7_witness :
    getStack [["a", "b"]] "z" = none ∧ getStack [["a", "b"]] "a" = some 0 ∧
    (isValidRelation [["a", "b"]] "above" "a" "z" = .ok true ∧
      isValidRelation [["a", "b"]] "below" "a" "z" = .ok false ∧
      isValidRelation [["a", "b"]] "ontop" "a" "z" =
        .ok ((jsIndexOf ([["a", "b"]].getD 0 []) "a" == 0) && ("z" == "floor")) ∧
      isValidRelation [["a", "b"]] "inside" "a" "z" =
        .ok ((jsIndexOf ([["a", "b"]].getD 0 []) "a" == 0) && ("z" == "floor"))) :=
  ⟨rfl, rfl,
    ((c7_unplaced_behavior [["a", "b"]] "a" "z").2 rfl).2.2.2 0 rfl⟩

/-- Claim C8 (corrected): for placed parent and child, the *compiled*
evaluator `hasRelation` reports `rightof(p, c)` exactly when `p`'s stack index
is `c`'s stack index plus one, but the `Graph.ts` evaluator `isValidRelation`
has no `rightof` case at all and reports `false` for every pair. -/
theorem c8_rightof_evaluators (stks : List (List String)) (p c : String)
    (i j : Nat) (hp : getStack stks p = some i) (hc : getStack stks c = some j) :
    (hasRelation stks "rightof" p c = .ok true ↔ i = j + 1) ∧
    isValidRelation stks "rightof" p c = .ok false := by
  constructor
  · simp only [hasRelation, hp, hc, jsAddOne, jsEqIntStack, beq_iff_eq]
    constructor
    · intro h
      have : ((j : Int) + 1 = (i : Int)) := by
        simpa using h
      omega
    · intro h
      subst h
      simp
  · simp [isValidRelation]

/-- Claim C8, counterexample to the claim as stated: `p` is directly right of
`c` (stack indices 1 and 0), yet the `Graph.ts` evaluator cited by the claim
reports `rightof(p, c)` as `false`. -/
theorem c8_counterexample :
    getStack [["c"], ["p"]] "p" = some 1 ∧ getStack [["c"], ["p"]] "c" = some 0 ∧
    isValidRelation [["c"], ["p"]] "rightof" "p" "c" = .ok false ∧
    hasRelation [["c"], ["p"]] "rightof" "p" "c" = .ok true := by
  refine ⟨rfl, rfl, rfl, rfl⟩

/-- Witness for `c8_rightof_evaluators` at a concrete configuration. -/
theorem c8_witness :
    getStack [["c"], ["p"]] "p" = some 1 ∧ getStack [["c"], ["p"]] "c" = some 0 ∧
    ((hasRelation [["c"], ["p"]] "rightof" "p" "c" = .ok true ↔ 1 = 0 + 1) ∧
      isValidRelation [["c"], ["p"]] "rightof" "p" "c" = .ok false) :=
  ⟨rfl, rfl, c8_rightof_evaluators [["c"], ["p"]] "p" "c" 1 0 rfl rfl⟩

/-! ## Claim C6: the `take` goal formula -/

/-- The `take` loop keeps one conjunction per *occurrence* in the candidate
list, skipping the floor sentinel. -/
theorem takeLoop_eq (ids : List String) :
    takeLoop ids =
      (ids.filter (fun id => id != "floor")).map (fun id => [Lit.mk true "holding" [id]]) := by
  induction ids with
  | nil => rfl
  | cons id rest ih =>
    by_cases h : id != "floor"
    · simp [takeLoop, h, List.filter_cons, ih]
    · simp only [takeLoop, h, Bool.false_eq_true, if_false]
      simp only [List.filter_cons, h]
      exact ih

/-- Claim C6 (corrected): for a `take` command the compiled interpreter emits
one single-literal conjunction `holding(id)` per *occurrence* of `id` in the
resolved candidate list (the resolver may repeat a candidate once per
nested-location witness), excluding the floor sentinel — in particular
`holding(floor)` is never produced — and throws when nothing remains. -/
theorem c6_take_per_occurrence (ent : PObject) (st : WorldState) :
    interpretCommand (.take ent) st =
      (getValidObjects st ent).bind (fun ids =>
        let conjs := (ids.filter (fun id => id != "floor")).map
          (fun id => [Lit.mk true "holding" [id]])
        if conjs.isEmpty then .error .userError else .ok conjs) := by
  have hmain : ∀ r : Except JsErr (List String),
      (r >>= fun ids =>
        let interp := takeLoop ids
        if interp.isEmpty then Except.error JsErr.userError else Except.ok interp) =
      (r.bind fun ids =>
        let conjs := (ids.filter (fun id => id != "floor")).map
          (fun id => [Lit.mk true "holding" [id]])
        if conjs.isEmpty then Except.error JsErr.userError else Except.ok conjs) := by
    intro r
    cases r with
    | error e => rfl
    | ok ids =>
      show (let interp := takeLoop ids
        if interp.isEmpty then Except.error JsErr.userError else Except.ok interp) = _
      simp only [takeLoop_eq]
      rfl
  exact hmain (getValidObjects st ent)

/-- Claim C6, counterexample to the claim as stated: taking "the box beside a
ball" in a world where the box is beside two balls resolves the box twice, and
the formula contains the conjunction `holding(p)` twice, not "exactly once per
candidate identifier in the set". -/
theorem c6_counterexample :
    interpretCommand
        (.take (.relative (.simple (some "box") none none) "beside"
          (.simple (some "ball") none none)))
        ⟨[["c1"], ["p"], ["c2"]],
          [("p", ⟨"box", "large", "red"⟩), ("c1", ⟨"ball", "small", "blue"⟩),
           ("c2", ⟨"ball", "small", "green"⟩)]⟩ =
      .ok [[Lit.mk true "holding" ["p"]], [Lit.mk true "holding" ["p"]]] ∧
    ([[Lit.mk true "holding" ["p"]], [Lit.mk true "holding" ["p"]]] : DNFFormula).count
        [Lit.mk true "holding" ["p"]] = 2 := by
  refine ⟨?_, rfl⟩
  rfl

/-- Claim C9 (code bug): synthesizing the step that moves the top of stack 0 to
stack 1 with the arm at column 1 throws, because after the arm-movement loop
the code pops `from[|arm − picStack|] = from[1]` — the empty destination stack —
instead of `from[picStack]`, then reads `.form` of `undefined`. -/
theorem c9_planBetweenStates_crash :
    planBetweenStates 1 [("a", ⟨"ball", "small", "white"⟩)] [["a"], []] [[], ["a"]] [] =
      .error .typeError := by
  decide

/-! ## Graph.ts: the generic A* search

The `Graph<Node>` interface supplies `outgoingEdges` and `compareNodes`.  The
search keeps a cost map, an fScore map, a visited set, a `cameFrom` map and a
priority queue of pending nodes ordered by the comparator
`cost(a) - cost(b)` — the cost-so-far `g`, *not* `f = g + h`.  The
`collections.ts` containers are not in the sources; per the specification they
are modelled as structurally-keyed maps and a queue whose pop returns the least
element of the comparator, earliest insertion first.  The wall clock is an
input `elapsed : Nat → Nat` giving the elapsed milliseconds at the k-th poll,
and the loop is run on fuel (`outOfFuel` marks exhausted fuel, not a source
outcome).  Both the timeout break and the exhausted open set fall through to
the single `return undefined`, rendered as `undef`. -/

structure GraphS (α : Type) where
  outgoingEdges : α → List (Edge α)
  compareNodes : α → α → Int

/-- The search's `distance` helper: the cost of the first edge of `node` whose
target compares equal to `next`; with no match the source falls off the end
(`return;`), i.e. `undefined` (`none`), which would poison the arithmetic with
`NaN` — rendered as an explicit failure at the use site. -/
def distance (g : GraphS α) (node next : α) : Option Nat :=
  ((g.outgoingEdges node).find? (fun e => g.compareNodes next e.«to» == 0)).map (·.cost)

/-- The search bookkeeping: visited set, pending queue (insertion order), the
three maps, the popped-node trace and the poll counter. -/
structure AState (α : Type) where
  visited : List α
  pending : List α
  cost : α → Option Nat
  fScore : α → Option Nat
  cameFrom : α → Option α
  trace : List α
  iter : Nat

/-- Point update of a structurally-keyed map. -/
def upd [DecidableEq α] (m : α → Option β) (k : α) (v : β) : α → Option β :=
  fun x => if x = k then some v else m x

/-- Pop of the modelled priority queue: the least element of `key`, earliest
insertion first. -/
def selectMin (key : α → Nat) : List α → Option (α × List α)
  | [] => none
  | x :: xs =>
    match selectMin key xs with
    | none => some (x, xs)
    | some (y, ys) => if key x ≤ key y then some (x, xs) else some (y, x :: ys)

/-- `constructPath`: follow `cameFrom` from the goal node back to the start.
The result is in goal-to-start order (the source pushes onto the array and
never reverses).  The fuel bounds the chain; the caller passes more fuel than
the chain can be long. -/
def constructPath : Nat → (α → Option α) → α → List α
  | 0, _, n => [n]
  | fuel + 1, cf, n =>
    match cf n with
    | none => [n]
    | some p => n :: constructPath fuel cf p

/-- The search outcome.  `found` carries the path and `fScore.getValue` of the
returned node (an `Option`, as `getValue` can be `undefined`); `undef` is the
single `return undefined` reached from both the timeout break and the
exhausted open set; `nan` marks the unmodelled `NaN` poisoning when `distance`
returns `undefined`; `outOfFuel` is a modelling artifact. -/
inductive SearchOut (α : Type) where
  | found (path : List α) (cost : Option Nat)
  | undef
  | nan
  | outOfFuel
deriving DecidableEq

/-- Write `cost`, `fScore` and `cameFrom` for a relaxed neighbour. -/
def updMaps [DecidableEq α] (h : α → Nat) (current nb : α) (t : Nat)
    (s : AState α) : AState α :=
  { s with cost := upd s.cost nb t, fScore := upd s.fScore nb (t + h nb),
           cameFrom := upd s.cameFrom nb current }

/-- The neighbour loop of one expansion.  Visited neighbours are skipped; a
fresh neighbour is enqueued and its maps written unconditionally; a pending
neighbour is rewritten only when the tentative cost improves (a missing cost
would make the `>=` comparison `NaN`-false in JavaScript, hence the `none`
branch also rewrites).  `(s.cost current).getD 0` renders
`cost.getValue(currentNode)`, which is always set for a popped node. -/
def expand [DecidableEq α] (g : GraphS α) (h : α → Nat) (current : α) :
    List (Edge α) → AState α → Except Unit (AState α)
  | [], s => .ok s
  | e :: es, s =>
    let nb := e.«to»
    if nb ∈ s.visited then expand g h current es s
    else
      match distance g current nb with
      | none => .error ()
      | some d =>
        let t := (s.cost current).getD 0 + d
        if nb ∈ s.pending then
          match s.cost nb with
          | some c =>
            if t ≥ c then expand g h current es s
            else expand g h current es (updMaps h current nb t s)
          | none => expand g h current es (updMaps h current nb t s)
        else
          expand g h current es (updMaps h current nb t { s with pending := s.pending ++ [nb] })

/-- The `while(!pendingNodes.isEmpty())` loop of `aStarSearch`: poll the clock
(strict `>`), pop the least-`cost` pending node, return on goal, otherwise mark
visited and expand. -/
def runAStar [DecidableEq α] (g : GraphS α) (goal : α → Bool) (h : α → Nat)
    (elapsed : Nat → Nat) (timeoutMs : Nat) : Nat → AState α → SearchOut α × AState α
  | 0, s => (.outOfFuel, s)
  | fuel + 1, s =>
    if s.pending.isEmpty then (.undef, s)
    else if timeoutMs < elapsed s.iter then (.undef, s)
    else
      match selectMin (fun n => (s.cost n).getD 0) s.pending with
      | none => (.undef, s)
      | some (current, rest) =>
        if goal current then
          (.found (constructPath (s.visited.length + 1) s.cameFrom current) (s.fScore current),
           { s with pending := rest, trace := s.trace ++ [current] })
        else
          match expand g h current (g.outgoingEdges current)
              { s with pending := rest, visited := s.visited ++ [current],
                       trace := s.trace ++ [current], iter := s.iter + 1 } with
          | .error _ => (.nan, s)
          | .ok s2 => runAStar g goal h elapsed timeoutMs fuel s2

/-- The initial bookkeeping: `cost[start] = 0`, `fScore[start] = h(start)`,
queue `[start]`. -/
def initState [DecidableEq α] (start : α) (h : α → Nat) : AState α :=
  { visited := [], pending := [start],
    cost := upd (fun _ => none) start 0,
    fScore := upd (fun _ => none) start (h start),
    cameFrom := fun _ => none, trace := [], iter := 0 }

/-- `aStarSearch(graph, start, goal, heuristics, timeout)`: the timeout is in
seconds and multiplied by 1000. -/
def aStarSearch [DecidableEq α] (g : GraphS α) (start : α) (goal : α → Bool)
    (h : α → Nat) (elapsed : Nat → Nat) (timeout : Nat) (fuel : Nat) : SearchOut α :=
  (runAStar g goal h elapsed (timeout * 1000) fuel (initState start h)).1

/-! ### Reachability, admissibility and path predicates -/

/-- `Reaches g a b k`: a directed walk of `k` edges from `a` to `b`. -/
inductive Reaches (g : GraphS α) : α → α → Nat → Prop where
  | refl (a : α) : Reaches g a a 0
  | step {a b : α} {k : Nat} (e : Edge α) (he : e ∈ g.outgoingEdges a)
      (hr : Reaches g e.«to» b k) : Reaches g a b (k + 1)

/-- Some goal-satisfying node is reachable from `start` in exactly `k` edges. -/
def GoalReach (g : GraphS α) (goal : α → Bool) (start : α) (k : Nat) : Prop :=
  ∃ t, goal t = true ∧ Reaches g start t k

/-- A consistent heuristic: along every edge, `h` drops by at most the edge cost. -/
def Consistent (g : GraphS α) (h : α → Nat) : Prop :=
  ∀ n, ∀ e ∈ g.outgoingEdges n, h n ≤ e.cost + h e.«to»

/-- An admissible heuristic: `h n` never exceeds the length of any walk from
`n` to a goal-satisfying node. -/
def Admissible (g : GraphS α) (goal : α → Bool) (h : α → Nat) : Prop :=
  ∀ n k t, goal t = true → Reaches g n t k → h n ≤ k

/-- The returned (goal-to-start) list read backwards follows graph edges. -/
def revPathOk (g : GraphS α) : List α → Prop
  | [] => True
  | [_] => True
  | x :: m :: rest => (∃ e ∈ g.outgoingEdges m, e.«to» = x) ∧ revPathOk g (m :: rest)

/-- The popped nodes, in pop order, have nondecreasing values of `key`. -/
def traceSortedBy (key : α → Nat) (tr : List α) : Prop :=
  tr.Pairwise (fun a b => key a ≤ key b)

instance (key : α → Nat) (tr : List α) : Decidable (traceSortedBy key tr) :=
  inferInstanceAs (Decidable (tr.Pairwise _))

/-! ### Elementary lemmas about walks, `distance` and the queue pop -/

theorem reaches_zero {g : GraphS α} {a b : α} (hr : Reaches g a b 0) : a = b := by
  cases hr
  rfl

theorem Reaches.extend {g : GraphS α} {a b : α} {k : Nat} (hr : Reaches g a b k)
    (e : Edge α) (he : e ∈ g.outgoingEdges b) : Reaches g a e.«to» (k + 1) := by
  induction hr with
  | refl a => exact Reaches.step e he (Reaches.refl _)
  | step e2 he2 hr2 ih => exact Reaches.step e2 he2 (ih he)

theorem reaches_snoc {g : GraphS α} :
    ∀ {a b : α} {k : Nat}, Reaches g a b (k + 1) →
      ∃ m e, Reaches g a m k ∧ e ∈ g.outgoingEdges m ∧ Edge.«to» e = b := by
  intro a b k
  induction k generalizing a with
  | zero =>
    intro hr
    cases hr with
    | step e he htail => exact ⟨a, e, Reaches.refl a, he, reaches_zero htail⟩
  | succ k ih =>
    intro hr
    cases hr with
    | step e he htail =>
      obtain ⟨m, e2, h1, h2, h3⟩ := ih htail
      exact ⟨m, e2, Reaches.step e he h1, h2, h3⟩

/-- With unit edge costs and a reflexive comparator, `distance` from a node to
any of its edge targets is `1`. -/
theorem distance_eq_one {g : GraphS α}
    (hunit : ∀ n, ∀ e ∈ g.outgoingEdges n, e.cost = 1)
    (hcmp : ∀ n, g.compareNodes n n = 0) {n : α} {e : Edge α}
    (he : e ∈ g.outgoingEdges n) : distance g n e.«to» = some 1 := by
  unfold distance
  cases hfind : (g.outgoingEdges n).find? (fun x => g.compareNodes e.«to» x.«to» == 0) with
  | none =>
    have := List.find?_eq_none.mp hfind e he
    simp [hcmp] at this
  | some e2 =>
    have hm := List.mem_of_find?_eq_some hfind
    simp [hunit n e2 hm]

theorem selectMin_eq_none_iff (key : α → Nat) :
    ∀ l : List α, selectMin key l = none ↔ l = []
  | [] => by simp [selectMin]
  | x :: xs => by
    cases hxs : selectMin key xs with
    | none => simp [selectMin, hxs]
    | some p =>
      simp only [selectMin, hxs]
      refine iff_of_false ?_ (by simp)
      split <;> simp

theorem selectMin_spec (key : α → Nat) :
    ∀ (l : List α) (y : α) (ys : List α), selectMin key l = some (y, ys) →
      l.Perm (y :: ys) ∧ ∀ z ∈ l, key y ≤ key z
  | [], y, ys => by simp [selectMin]
  | x :: xs, y, ys => by
    intro hsel
    cases hxs : selectMin key xs with
    | none =>
      have hnil : xs = [] := (selectMin_eq_none_iff key xs).mp hxs
      subst hnil
      simp only [selectMin, Option.some.injEq, Prod.mk.injEq] at hsel
      obtain ⟨rfl, rfl⟩ := hsel
      exact ⟨List.Perm.refl _, by simp⟩
    | some p =>
      obtain ⟨y2, ys2⟩ := p
      obtain ⟨hperm, hmin⟩ := selectMin_spec key xs y2 ys2 hxs
      simp only [selectMin, hxs] at hsel
      by_cases hle : key x ≤ key y2
      · simp only [hle, if_true, Option.some.injEq, Prod.mk.injEq] at hsel
        obtain ⟨rfl, rfl⟩ := hsel
        refine ⟨List.Perm.refl _, ?_⟩
        intro z hz
        rcases List.mem_cons.mp hz with rfl | hz2
        · exact le_refl _
        · exact le_trans hle (hmin z hz2)
      · simp only [hle, if_false, Option.some.injEq, Prod.mk.injEq] at hsel
        obtain ⟨rfl, rfl⟩ := hsel
        constructor
        · exact (hperm.cons x).trans (List.Perm.swap y2 x ys2)
        · intro z hz
          rcases List.mem_cons.mp hz with rfl | hz2
          · exact le_of_lt (lt_of_not_le hle)
          · exact hmin z hz2

/-! ### The search invariant

Mirrors the classical Dijkstra invariant: visited ("settled") nodes carry
shortest distances, pending nodes carry realizable distances, every edge out of
the settled region into an unsettled node is relaxed and its target pending,
and visited costs never exceed pending costs.  `lnk` records the `cameFrom`
chains for path reconstruction, `fsc` couples `fScore = cost + h`, `tmono`
records that pops happened in nondecreasing cost order, and `bnd` bounds every
recorded cost by the number of settled nodes. -/

structure Inv [DecidableEq α] (g : GraphS α) (goal : α → Bool) (h : α → Nat)
    (start : α) (s : AState α) : Prop where
  trv : s.trace = s.visited
  ndv : s.visited.Nodup
  ndp : s.pending.Nodup
  dis : ∀ x ∈ s.pending, x ∉ s.visited
  dom : ∀ x, (s.cost x).isSome = true ↔ (x ∈ s.visited ∨ x ∈ s.pending)
  stv : start ∈ s.visited ∨ start ∈ s.pending
  st0 : s.cost start = some 0
  stf : s.cameFrom start = none
  lnk : ∀ x, (x ∈ s.visited ∨ x ∈ s.pending) → x ≠ start →
    ∃ m cm, s.cameFrom x = some m ∧ m ∈ s.visited ∧ s.cost m = some cm ∧
      s.cost x = some (cm + 1) ∧ ∃ e ∈ g.outgoingEdges m, Edge.«to» e = x
  fsc : ∀ x cx, s.cost x = some cx → s.fScore x = some (cx + h x)
  ngv : ∀ x ∈ s.visited, goal x = false
  vis : ∀ m ∈ s.visited, ∃ cm, s.cost m = some cm ∧ Reaches g start m cm ∧
    ∀ k, Reaches g start m k → cm ≤ k
  pnd : ∀ q ∈ s.pending, ∃ cq, s.cost q = some cq ∧ Reaches g start q cq
  frt : ∀ m ∈ s.visited, ∀ e ∈ g.outgoingEdges m, Edge.«to» e ∉ s.visited →
    ∃ cm ct, s.cost m = some cm ∧ s.cost (Edge.«to» e) = some ct ∧ ct ≤ cm + 1 ∧
      Edge.«to» e ∈ s.pending
  mono : ∀ m ∈ s.visited, ∀ q ∈ s.pending, ∀ cm cq,
    s.cost m = some cm → s.cost q = some cq → cm ≤ cq
  tmono : s.trace.Pairwise
    (fun a b => ∀ ca cb, s.cost a = some ca → s.cost b = some cb → ca ≤ cb)
  bnd : ∀ x cx, s.cost x = some cx → cx ≤ s.visited.length

theorem upd_self [DecidableEq α] (m : α → Option β) (k : α) (v : β) :
    upd m k v k = some v := by
  simp [upd]

theorem upd_ne [DecidableEq α] (m : α → Option β) {k x : α} (v : β) (hx : x ≠ k) :
    upd m k v x = m x := by
  simp [upd, hx]

theorem inv_init [DecidableEq α] (g : GraphS α) (goal : α → Bool) (h : α → Nat)
    (start : α) : Inv g goal h start (initState start h) where
  trv := rfl
  ndv := List.nodup_nil
  ndp := List.nodup_singleton _
  dis := fun x _ => List.not_mem_nil x
  dom := by
    intro x
    show (upd (fun _ => (none : Option Nat)) start 0 x).isSome = true ↔
      (x ∈ ([] : List α) ∨ x ∈ [start])
    by_cases hxs : x = start
    · rw [hxs, upd_self]
      simp
    · rw [upd_ne _ _ hxs]
      simp [hxs]
  stv := Or.inr (List.mem_singleton_self start)
  st0 := by
    show upd (fun _ => (none : Option Nat)) start 0 start = some 0
    exact upd_self _ start 0
  stf := rfl
  lnk := by
    intro x hx hxs
    rcases hx with hx | hx
    · exact absurd hx (List.not_mem_nil x)
    · exact absurd (List.mem_singleton.mp hx) hxs
  fsc := by
    intro x cx hcx
    have hcx2 : upd (fun _ => (none : Option Nat)) start 0 x = some cx := hcx
    by_cases hxs : x = start
    · rw [hxs, upd_self] at hcx2
      have h0 : (0 : Nat) = cx := Option.some.inj hcx2
      rw [hxs]
      show upd (fun _ => none) start (h start) start = some (cx + h start)
      rw [upd_self, ← h0, Nat.zero_add]
    · rw [upd_ne _ _ hxs] at hcx2
      exact absurd hcx2 (by simp)
  ngv := fun x hx => absurd hx (List.not_mem_nil x)
  vis := fun m hm => absurd hm (List.not_mem_nil m)
  pnd := by
    intro q hq
    have hq2 : q = start := List.mem_singleton.mp hq
    rw [hq2]
    refine ⟨0, ?_, Reaches.refl start⟩
    show upd (fun _ => (none : Option Nat)) start 0 start = some 0
    exact upd_self _ start 0
  frt := fun m hm => absurd hm (List.not_mem_nil m)
  mono := fun m hm => absurd hm (List.not_mem_nil m)
  tmono := List.Pairwise.nil
  bnd := by
    intro x cx hcx
    have hcx2 : upd (fun _ => (none : Option Nat)) start 0 x = some cx := hcx
    by_cases hxs : x = start
    · rw [hxs, upd_self] at hcx2
      have h0 : (0 : Nat) = cx := Option.some.inj hcx2
      show cx ≤ ([] : List α).length
      simp
      omega
    · rw [upd_ne _ _ hxs] at hcx2
      exact absurd hcx2 (by simp)

/-- Following a walk from a settled node to an unsettled one must cross a
pending node whose recorded cost is at most the settled cost plus the walk
length. -/
theorem inv_frontier_path [DecidableEq α] {g : GraphS α} {goal : α → Bool}
    {h : α → Nat} {start : α} {s : AState α} (I : Inv g goal h start s) :
    ∀ {v u : α} {k : Nat}, Reaches g v u k → v ∈ s.visited → u ∉ s.visited →
      ∀ cv, s.cost v = some cv →
        ∃ q cq, q ∈ s.pending ∧ s.cost q = some cq ∧ cq ≤ cv + k := by
  intro v u k hr
  induction hr with
  | refl a =>
    intro hv hu
    exact absurd hv hu
  | step e he htail ih =>
    intro hv hu cv hcv
    by_cases hw : Edge.«to» e ∈ s.visited
    · obtain ⟨cw, hcw, hrw, hminw⟩ := I.vis _ hw
      obtain ⟨ca, hca, hra, _⟩ := I.vis _ hv
      have hca2 : ca = cv := by
        rw [hca] at hcv
        exact Option.some.inj hcv
      rw [hca2] at hra
      have hreach : Reaches g start (Edge.«to» e) (cv + 1) := hra.extend e he
      have hcw2 : cw ≤ cv + 1 := hminw _ hreach
      obtain ⟨q, cq, hq, hcq, hle⟩ := ih hw hu cw hcw
      exact ⟨q, cq, hq, hcq, by omega⟩
    · obtain ⟨cm, ct, hcm, hct, hle, hpend⟩ := I.frt _ hv e he hw
      have hcm2 : cm = cv := by
        rw [hcm] at hcv
        exact Option.some.inj hcv
      rw [hcm2] at hle
      exact ⟨Edge.«to» e, ct, hpend, hct, by omega⟩

/-- Every walk from the start to an unsettled node crosses a pending node
whose recorded cost is at most the walk length. -/
theorem inv_cover [DecidableEq α] {g : GraphS α} {goal : α → Bool}
    {h : α → Nat} {start : α} {s : AState α} (I : Inv g goal h start s)
    {u : α} {k : Nat} (hr : Reaches g start u k) (hu : u ∉ s.visited) :
    ∃ q cq, q ∈ s.pending ∧ s.cost q = some cq ∧ cq ≤ k := by
  rcases I.stv with hs | hs
  · obtain ⟨q, cq, h1, h2, h3⟩ := inv_frontier_path I hr hs hu 0 I.st0
    exact ⟨q, cq, h1, h2, by omega⟩
  · exact ⟨start, 0, hs, I.st0, Nat.zero_le k⟩

/-- `constructPath` with enough fuel follows the `cameFrom` chain of any
recorded node: the result has length `cost + 1`, runs from the node back to the
start, and read backwards follows graph edges. -/
theorem constructPath_spec [DecidableEq α] {g : GraphS α} {goal : α → Bool}
    {h : α → Nat} {start : α} {s : AState α} (I : Inv g goal h start s) :
    ∀ (cx : Nat) (x : α), (x ∈ s.visited ∨ x ∈ s.pending) → s.cost x = some cx →
      ∀ fuel, cx < fuel →
        (constructPath fuel s.cameFrom x).length = cx + 1 ∧
        (constructPath fuel s.cameFrom x).head? = some x ∧
        (constructPath fuel s.cameFrom x).getLast? = some start ∧
        revPathOk g (constructPath fuel s.cameFrom x) := by
  intro cx
  induction cx using Nat.strong_induction_on with
  | _ cx ih =>
    intro x hx hcx fuel hfuel
    by_cases hxs : x = start
    · subst hxs
      have hc0 : cx = 0 := by
        rw [I.st0] at hcx
        exact (Option.some.inj hcx).symm
      subst hc0
      obtain ⟨fu, rfl⟩ : ∃ fu, fuel = fu + 1 := ⟨fuel - 1, by omega⟩
      simp [constructPath, I.stf, revPathOk]
    · obtain ⟨m, cm, hcf, hmv, hcm, hcx2, e, he, hto⟩ := I.lnk x hx hxs
      have hcmcx : cx = cm + 1 := by
        rw [hcx2] at hcx
        exact (Option.some.inj hcx).symm
      obtain ⟨fu, rfl⟩ : ∃ fu, fuel = fu + 1 := ⟨fuel - 1, by omega⟩
      have hrec := ih cm (by omega) m (Or.inl hmv) hcm fu (by omega)
      obtain ⟨hlen, hhead, hlast, hrev⟩ := hrec
      have hcp : constructPath (fu + 1) s.cameFrom x = x :: constructPath fu s.cameFrom m := by
        simp [constructPath, hcf]
      cases hL : constructPath fu s.cameFrom m with
      | nil => simp [hL] at hlen
      | cons m2 L2 =>
        have hm2 : m2 = m := by
          rw [hL] at hhead
          simpa using hhead
        subst hm2
        rw [hL] at hlen hlast hrev
        refine ⟨?_, ?_, ?_, ?_⟩
        · rw [hcp, hL]
          simp at hlen ⊢
          omega
        · rw [hcp]
          rfl
        · rw [hcp, hL]
          rw [List.getLast?_cons_cons]
          exact hlast
        · rw [hcp, hL]
          exact ⟨⟨e, he, hto⟩, hrev⟩

/-! ### Effect of one expansion -/

theorem updMaps_cost_self [DecidableEq α] (h : α → Nat) (current nb : α) (t : Nat)
    (s : AState α) : (updMaps h current nb t s).cost nb = some t :=
  upd_self _ _ _

theorem updMaps_cost_ne [DecidableEq α] (h : α → Nat) (current nb : α) (t : Nat)
    (s : AState α) {x : α} (hx : x ≠ nb) : (updMaps h current nb t s).cost x = s.cost x :=
  upd_ne _ _ hx

theorem updMaps_from_self [DecidableEq α] (h : α → Nat) (current nb : α) (t : Nat)
    (s : AState α) : (updMaps h current nb t s).cameFrom nb = some current :=
  upd_self _ _ _

theorem updMaps_from_ne [DecidableEq α] (h : α → Nat) (current nb : α) (t : Nat)
    (s : AState α) {x : α} (hx : x ≠ nb) :
    (updMaps h current nb t s).cameFrom x = s.cameFrom x :=
  upd_ne _ _ hx

theorem updMaps_fs_self [DecidableEq α] (h : α → Nat) (current nb : α) (t : Nat)
    (s : AState α) : (updMaps h current nb t s).fScore nb = some (t + h nb) :=
  upd_self _ _ _

theorem updMaps_fs_ne [DecidableEq α] (h : α → Nat) (current nb : α) (t : Nat)
    (s : AState α) {x : α} (hx : x ≠ nb) :
    (updMaps h current nb t s).fScore x = s.fScore x :=
  upd_ne _ _ hx

/-- The conclusion bundle of `expand_spec`, relative to the pre-expansion state:
bookkeeping lists untouched except pending, maps untouched or rewritten to an
improving `gc + 1` entry pointing back to `current`, and every unvisited edge
target pending with cost at most `gc + 1`. -/
def ExpandOut [DecidableEq α] (g : GraphS α) (h : α → Nat) (current : α) (gc : Nat)
    (es : List (Edge α)) (s s2 : AState α) : Prop :=
  s2.visited = s.visited ∧ s2.trace = s.trace ∧ s2.iter = s.iter ∧
  s2.pending.Nodup ∧
  (∀ x, x ∈ s2.pending ↔ (x ∈ s.pending ∨ (x ∈ es.map Edge.«to» ∧ x ∉ s.visited))) ∧
  (∀ x, (s2.cost x = s.cost x ∧ s2.cameFrom x = s.cameFrom x ∧ s2.fScore x = s.fScore x) ∨
    (s2.cost x = some (gc + 1) ∧ s2.cameFrom x = some current ∧
     s2.fScore x = some (gc + 1 + h x) ∧ x ∉ s.visited ∧ x ∈ es.map Edge.«to» ∧
     (∀ cx, s.cost x = some cx → gc + 1 < cx))) ∧
  (∀ x, x ∈ es.map Edge.«to» → x ∉ s.visited → ∃ cx, s2.cost x = some cx ∧ cx ≤ gc + 1)

/-- Prepending a skipped edge (target visited, or already pending with no
improvement) to an expansion. -/
theorem ExpandOut.consSkip [DecidableEq α] {g : GraphS α} {h : α → Nat} {current : α}
    {gc : Nat} {es : List (Edge α)} {s s2 : AState α}
    (ho : ExpandOut g h current gc es s s2) {e : Edge α}
    (hnb : Edge.«to» e ∈ s.visited ∨
      (Edge.«to» e ∈ s.pending ∧ ∃ c, s.cost (Edge.«to» e) = some c ∧ c ≤ gc + 1)) :
    ExpandOut g h current gc (e :: es) s s2 := by
  obtain ⟨h1, h2, h3, h4, h5, h6, h7⟩ := ho
  refine ⟨h1, h2, h3, h4, ?_, ?_, ?_⟩
  · intro x
    rw [h5 x]
    constructor
    · intro hx
      rcases hx with hx | ⟨hx1, hx2⟩
      · exact Or.inl hx
      · exact Or.inr ⟨by simp [hx1], hx2⟩
    · intro hx
      rcases hx with hx | ⟨hx1, hx2⟩
      · exact Or.inl hx
      · simp only [List.map_cons, List.mem_cons] at hx1
        rcases hx1 with hx1 | hx1
        · rcases hnb with hnb | ⟨hnb, _⟩
          · exact absurd (hx1 ▸ hnb) hx2
          · exact Or.inl (hx1 ▸ hnb)
        · exact Or.inr ⟨hx1, hx2⟩
  · intro x
    rcases h6 x with hcase | ⟨hc1, hc2, hc3, hc4, hc5, hc6⟩
    · exact Or.inl hcase
    · have hc5b : x ∈ (e :: es).map Edge.«to» := by
        simp only [List.map_cons, List.mem_cons]
        exact Or.inr hc5
      exact Or.inr ⟨hc1, hc2, hc3, hc4, hc5b, hc6⟩
  · intro x hx1 hx2
    simp only [List.map_cons, List.mem_cons] at hx1
    rcases hx1 with hx1 | hx1
    · rcases hnb with hnb | ⟨_, c, hc, hcle⟩
      · exact absurd (hx1 ▸ hnb) hx2
      · rcases h6 x with ⟨hc1, _, _⟩ | ⟨hc1, _, _, _, _, _⟩
        · exact ⟨c, by rw [hc1, hx1, hc], hcle⟩
        · exact ⟨gc + 1, hc1, le_refl _⟩
    · exact h7 x hx1 hx2

/-- Prepending a relaxed edge: the maps were first rewritten for the target
(`updMaps`), possibly with the target enqueued, then the rest expanded. -/
theorem ExpandOut.consUpdate [DecidableEq α] {g : GraphS α} {h : α → Nat} {current : α}
    {gc : Nat} {es : List (Edge α)} (s s0 : AState α) {s2 : AState α} {e : Edge α}
    (hvis : s0.visited = s.visited) (htr : s0.trace = s.trace) (hit : s0.iter = s.iter)
    (hmaps : s0.cost = s.cost ∧ s0.cameFrom = s.cameFrom ∧ s0.fScore = s.fScore)
    (hpend : ∀ x, x ∈ s0.pending ↔ (x ∈ s.pending ∨ x = Edge.«to» e))
    (hnv : Edge.«to» e ∉ s.visited)
    (himp : ∀ cx, s.cost (Edge.«to» e) = some cx → gc + 1 < cx)
    (ho : ExpandOut g h current gc es (updMaps h current (Edge.«to» e) (gc + 1) s0) s2) :
    ExpandOut g h current gc (e :: es) s s2 := by
  obtain ⟨hm1, hm2, hm3⟩ := hmaps
  set s1 := updMaps h current (Edge.«to» e) (gc + 1) s0 with hs1
  obtain ⟨h1, h2, h3, h4, h5, h6, h7⟩ := ho
  have hs1vis : s1.visited = s.visited := hvis
  have hs1pend : s1.pending = s0.pending := rfl
  refine ⟨by rw [h1, hs1vis], by rw [h2]; exact htr, by rw [h3]; exact hit, h4, ?_, ?_, ?_⟩
  · intro x
    rw [h5 x, hs1pend, hs1vis, hpend x]
    constructor
    · intro hx
      rcases hx with (hx | hx) | ⟨hx1, hx2⟩
      · exact Or.inl hx
      · exact Or.inr ⟨by simp [hx], hx ▸ hnv⟩
      · exact Or.inr ⟨by simp [hx1], hx2⟩
    · intro hx
      rcases hx with hx | ⟨hx1, hx2⟩
      · exact Or.inl (Or.inl hx)
      · simp only [List.map_cons, List.mem_cons] at hx1
        rcases hx1 with hx1 | hx1
        · exact Or.inl (Or.inr hx1)
        · exact Or.inr ⟨hx1, hx2⟩
  · intro x
    by_cases hxe : x = Edge.«to» e
    · right
      rcases h6 x with ⟨hc1, hc2, hc3⟩ | ⟨hc1, hc2, hc3, hc4, hc5, hc6⟩
      · rw [hxe] at hc1 hc2 hc3 ⊢
        rw [updMaps_cost_self] at hc1
        rw [updMaps_from_self] at hc2
        rw [updMaps_fs_self] at hc3
        exact ⟨hc1, hc2, hc3, hnv, by simp, himp⟩
      · rw [hxe] at hc1 hc2 hc3 ⊢
        exact ⟨hc1, hc2, hc3, hnv, by simp, himp⟩
    · rcases h6 x with ⟨hc1, hc2, hc3⟩ | ⟨hc1, hc2, hc3, hc4, hc5, hc6⟩
      · left
        rw [updMaps_cost_ne _ _ _ _ _ hxe, hm1] at hc1
        rw [updMaps_from_ne _ _ _ _ _ hxe, hm2] at hc2
        rw [updMaps_fs_ne _ _ _ _ _ hxe, hm3] at hc3
        exact ⟨hc1, hc2, hc3⟩
      · right
        rw [hs1vis] at hc4
        have hc5b : x ∈ (e :: es).map Edge.«to» := by
          simp only [List.map_cons, List.mem_cons]
          exact Or.inr hc5
        refine ⟨hc1, hc2, hc3, hc4, hc5b, ?_⟩
        intro cx hcx
        apply hc6
        rw [updMaps_cost_ne _ _ _ _ _ hxe, hm1]
        exact hcx
  · intro x hx1 hx2
    simp only [List.map_cons, List.mem_cons] at hx1
    rcases hx1 with hx1 | hx1
    · rcases h6 x with ⟨hc1, _, _⟩ | ⟨hc1, _, _, _, _, _⟩
      · refine ⟨gc + 1, ?_, le_refl _⟩
        rw [hc1, hx1, updMaps_cost_self]
      · exact ⟨gc + 1, hc1, le_refl _⟩
    · refine h7 x hx1 ?_
      rw [hs1vis]
      exact hx2

/-- Effect of one expansion with unit edge costs. -/
theorem expand_spec [DecidableEq α] {g : GraphS α} (h : α → Nat)
    (hunit : ∀ n, ∀ e ∈ g.outgoingEdges n, e.cost = 1)
    (hcmp : ∀ n, g.compareNodes n n = 0) (current : α) (gc : Nat) :
    ∀ (es : List (Edge α)) (s : AState α),
      (∀ e ∈ es, e ∈ g.outgoingEdges current) →
      current ∈ s.visited →
      s.cost current = some gc →
      (∀ x, (s.cost x).isSome = true → (x ∈ s.visited ∨ x ∈ s.pending)) →
      s.pending.Nodup →
      (∀ x ∈ s.pending, x ∉ s.visited) →
      ∃ s2, expand g h current es s = .ok s2 ∧ ExpandOut g h current gc es s s2 := by
  intro es
  induction es with
  | nil =>
    intro s _ _ _ _ hnd _
    refine ⟨s, rfl, rfl, rfl, rfl, hnd, ?_, ?_, ?_⟩
    · intro x
      simp
    · intro x
      exact Or.inl ⟨rfl, rfl, rfl⟩
    · intro x hx
      simp at hx
  | cons e es ih =>
    intro s hsub hcv hcc hdom hnd hdis
    have hedge : e ∈ g.outgoingEdges current := hsub e (List.mem_cons_self e es)
    have hsub2 : ∀ e2 ∈ es, e2 ∈ g.outgoingEdges current :=
      fun e2 he2 => hsub e2 (List.mem_cons_of_mem e he2)
    by_cases hv : Edge.«to» e ∈ s.visited
    · obtain ⟨s2, hrun, ho⟩ := ih s hsub2 hcv hcc hdom hnd hdis
      refine ⟨s2, ?_, ho.consSkip (Or.inl hv)⟩
      simpa [expand, hv] using hrun
    · have hdist : distance g current (Edge.«to» e) = some 1 := distance_eq_one hunit hcmp hedge
      have hne : Edge.«to» e ≠ current := fun hx => hv (hx ▸ hcv)
      have htval : (s.cost current).getD 0 + 1 = gc + 1 := by rw [hcc]; rfl
      by_cases hp : Edge.«to» e ∈ s.pending
      · -- already pending
        have hig : ∀ (himp : ∀ cx, s.cost (Edge.«to» e) = some cx → gc + 1 < cx),
            ∃ s2, expand g h current es
                (updMaps h current (Edge.«to» e) (gc + 1) s) = .ok s2 ∧
              ExpandOut g h current gc (e :: es) s s2 := by
          intro himp
          have hkc : (updMaps h current (Edge.«to» e) (gc + 1) s).cost current = some gc := by
            rw [updMaps_cost_ne _ _ _ _ _ (Ne.symm hne)]
            exact hcc
          have hkd : ∀ x, ((updMaps h current (Edge.«to» e) (gc + 1) s).cost x).isSome = true →
              (x ∈ s.visited ∨ x ∈ s.pending) := by
            intro x hx
            by_cases hxe : x = Edge.«to» e
            · exact Or.inr (hxe ▸ hp)
            · rw [updMaps_cost_ne _ _ _ _ _ hxe] at hx
              exact hdom x hx
          obtain ⟨s2, hrun, ho⟩ := ih (updMaps h current (Edge.«to» e) (gc + 1) s)
            hsub2 hcv hkc hkd hnd hdis
          exact ⟨s2, hrun, ExpandOut.consUpdate s s rfl rfl rfl ⟨rfl, rfl, rfl⟩
            (fun x => by
              constructor
              · intro hx
                exact Or.inl hx
              · intro hx
                rcases hx with hx | hx
                · exact hx
                · exact hx ▸ hp) hv himp ho⟩
        cases hcnb : s.cost (Edge.«to» e) with
        | none =>
          obtain ⟨s2, hrun, ho⟩ := hig (fun cx hcx => by rw [hcnb] at hcx; cases hcx)
          refine ⟨s2, ?_, ho⟩
          rw [show expand g h current (e :: es) s = expand g h current es
              (updMaps h current (Edge.«to» e) ((s.cost current).getD 0 + 1) s) from by
            simp [expand, hv, hdist, hp, hcnb]]
          rw [htval]
          exact hrun
        | some c =>
          by_cases hge : (s.cost current).getD 0 + 1 ≥ c
          · obtain ⟨s2, hrun, ho⟩ := ih s hsub2 hcv hcc hdom hnd hdis
            have hle : c ≤ gc + 1 := by
              rw [hcc] at hge
              simpa using hge
            refine ⟨s2, ?_, ho.consSkip (Or.inr ⟨hp, c, hcnb, hle⟩)⟩
            simpa [expand, hv, hdist, hp, hcnb, hge] using hrun
          · have hclt : gc + 1 < c := by
              rw [hcc] at hge
              simp at hge
              omega
            obtain ⟨s2, hrun, ho⟩ := hig (fun cx hcx => by
              rw [hcnb] at hcx
              have := Option.some.inj hcx
              omega)
            refine ⟨s2, ?_, ho⟩
            rw [show expand g h current (e :: es) s = expand g h current es
                (updMaps h current (Edge.«to» e) ((s.cost current).getD 0 + 1) s) from by
              simp [expand, hv, hdist, hp, hcnb, hge]]
            rw [htval]
            exact hrun
      · -- fresh target
        have hfresh : s.cost (Edge.«to» e) = none := by
          cases hcnb : s.cost (Edge.«to» e) with
          | none => rfl
          | some c =>
            rcases hdom (Edge.«to» e) (by rw [hcnb]; rfl) with hh | hh
            · exact absurd hh hv
            · exact absurd hh hp
        set s0 : AState α := { s with pending := s.pending ++ [Edge.«to» e] } with hs0
        have hkc : (updMaps h current (Edge.«to» e) (gc + 1) s0).cost current = some gc := by
          rw [updMaps_cost_ne _ _ _ _ _ (Ne.symm hne)]
          exact hcc
        have hkd : ∀ x, ((updMaps h current (Edge.«to» e) (gc + 1) s0).cost x).isSome = true →
            (x ∈ s0.visited ∨ x ∈ s0.pending) := by
          intro x hx
          by_cases hxe : x = Edge.«to» e
          · right
            show x ∈ s.pending ++ [Edge.«to» e]
            simp [hxe]
          · rw [updMaps_cost_ne _ _ _ _ _ hxe] at hx
            rcases hdom x hx with hh | hh
            · exact Or.inl hh
            · right
              show x ∈ s.pending ++ [Edge.«to» e]
              simp [hh]
        have hknd : (updMaps h current (Edge.«to» e) (gc + 1) s0).pending.Nodup := by
          show (s.pending ++ [Edge.«to» e]).Nodup
          rw [List.nodup_append]
          refine ⟨hnd, List.nodup_singleton _, ?_⟩
          intro a ha hb
          simp only [List.mem_singleton] at hb
          exact hp (hb ▸ ha)
        have hkdis : ∀ x ∈ (updMaps h current (Edge.«to» e) (gc + 1) s0).pending,
            x ∉ (updMaps h current (Edge.«to» e) (gc + 1) s0).visited := by
          intro x hx
          have hx2 : x ∈ s.pending ++ [Edge.«to» e] := hx
          simp only [List.mem_append, List.mem_singleton] at hx2
          show x ∉ s.visited
          rcases hx2 with hx2 | hx2
          · exact hdis x hx2
          · exact hx2 ▸ hv
        obtain ⟨s2, hrun, ho⟩ := ih (updMaps h current (Edge.«to» e) (gc + 1) s0)
          hsub2 hcv hkc hkd hknd hkdis
        refine ⟨s2, ?_, ExpandOut.consUpdate s s0 rfl rfl rfl ⟨rfl, rfl, rfl⟩
          (fun x => by
            show x ∈ s.pending ++ [Edge.«to» e] ↔ _
            simp) hv
          (fun cx hcx => by rw [hfresh] at hcx; cases hcx) ho⟩
        rw [show expand g h current (e :: es) s = expand g h current es
            (updMaps h current (Edge.«to» e) ((s.cost current).getD 0 + 1) s0) from by
          simp [expand, hv, hdist, hp, hs0]]
        rw [htval]
        exact hrun

/-- Popping the minimal pending node (not a goal) and expanding its edges
preserves the search invariant. -/
theorem inv_step [DecidableEq α] {g : GraphS α} {goal : α → Bool} {h : α → Nat}
    {start : α} {s : AState α}
    (hunit : ∀ n, ∀ e ∈ g.outgoingEdges n, e.cost = 1)
    (hcmp : ∀ n, g.compareNodes n n = 0)
    (I : Inv g goal h start s) {current : α} {rest : List α}
    (hsel : selectMin (fun n => (s.cost n).getD 0) s.pending = some (current, rest))
    (hgoal : goal current = false) {s2 : AState α}
    (hexp : expand g h current (g.outgoingEdges current)
      { s with pending := rest, visited := s.visited ++ [current],
               trace := s.trace ++ [current], iter := s.iter + 1 } = .ok s2) :
    Inv g goal h start s2 := by
  obtain ⟨hperm, hmin⟩ := selectMin_spec _ s.pending current rest hsel
  have hcur : current ∈ s.pending := hperm.mem_iff.mpr (List.mem_cons_self _ _)
  have hcnv : current ∉ s.visited := I.dis current hcur
  obtain ⟨gc, hgc, hreachc⟩ := I.pnd current hcur
  have hminc : ∀ q ∈ s.pending, ∀ cq, s.cost q = some cq → gc ≤ cq := by
    intro q hq cq hcq
    have := hmin q hq
    rw [hgc, hcq] at this
    simpa using this
  have hsplit : ∀ x ∈ s.pending, x = current ∨ x ∈ rest := by
    intro x hx
    exact List.mem_cons.mp (hperm.mem_iff.mp hx)
  have hrest_sub : ∀ x ∈ rest, x ∈ s.pending := by
    intro x hx
    exact hperm.mem_iff.mpr (List.mem_cons_of_mem _ hx)
  have hndc : (current :: rest).Nodup := hperm.nodup I.ndp
  have hcnr : current ∉ rest := (List.nodup_cons.mp hndc).1
  have hndr : rest.Nodup := (List.nodup_cons.mp hndc).2
  have hndv2 : (s.visited ++ [current]).Nodup := by
    rw [List.nodup_append]
    refine ⟨I.ndv, List.nodup_singleton _, ?_⟩
    intro a ha hb
    simp only [List.mem_singleton] at hb
    exact hcnv (hb ▸ ha)
  obtain ⟨s2x, heq, ho⟩ := expand_spec h hunit hcmp current gc (g.outgoingEdges current)
    { s with pending := rest, visited := s.visited ++ [current],
             trace := s.trace ++ [current], iter := s.iter + 1 }
    (fun e he => he)
    (List.mem_append_right _ (List.mem_singleton_self current))
    hgc
    (by
      intro x hx
      rcases (I.dom x).mp hx with hh | hh
      · exact Or.inl (List.mem_append_left _ hh)
      · rcases hsplit x hh with hh2 | hh2
        · exact Or.inl (List.mem_append_right _ (by simp [hh2]))
        · exact Or.inr hh2)
    hndr
    (by
      intro x hx
      have hx2 : x ∈ s.pending := hrest_sub x hx
      intro hmem
      rcases List.mem_append.mp hmem with hm | hm
      · exact I.dis x hx2 hm
      · simp only [List.mem_singleton] at hm
        exact hcnr (hm ▸ hx))
  have hs2x : s2 = s2x := (Except.ok.inj (heq.symm.trans hexp)).symm
  subst hs2x
  obtain ⟨e1, e2, e3, e4, e5, e6, e7⟩ := ho
  -- mid-state projections
  have e1v : s2.visited = s.visited ++ [current] := e1
  have e2t : s2.trace = s.trace ++ [current] := e2
  have e3i : s2.iter = s.iter + 1 := e3
  have hcur_unch : s2.cost current = s.cost current ∧ s2.cameFrom current = s.cameFrom current ∧
      s2.fScore current = s.fScore current := by
    rcases e6 current with hcase | ⟨_, _, _, hc4, _, _⟩
    · exact hcase
    · exact absurd (List.mem_append_right _ (List.mem_singleton_self current)) hc4
  have hvis_unch : ∀ x ∈ s.visited, s2.cost x = s.cost x ∧ s2.cameFrom x = s.cameFrom x ∧
      s2.fScore x = s.fScore x := by
    intro x hx
    rcases e6 x with hcase | ⟨_, _, _, hc4, _, _⟩
    · exact hcase
    · exact absurd (List.mem_append_left _ hx) hc4
  have hccur2 : s2.cost current = some gc := by rw [hcur_unch.1, hgc]
  have hpend_old : ∀ x, x ∈ s2.pending → s2.cost x = s.cost x → x ∈ s.pending := by
    intro x hx hcx
    rcases (e5 x).mp hx with hx1 | ⟨hx1, hx2⟩
    · exact hrest_sub x hx1
    · obtain ⟨cx, hcx2, _⟩ := e7 x hx1 hx2
      rw [hcx] at hcx2
      rcases (I.dom x).mp (by rw [hcx2]; rfl) with hh | hh
      · exact absurd (List.mem_append_left _ hh) hx2
      · exact hh
  have hedge_of_tos : ∀ x, x ∈ (g.outgoingEdges current).map Edge.«to» →
      ∃ e ∈ g.outgoingEdges current, Edge.«to» e = x := by
    intro x hx
    obtain ⟨e, he, hex⟩ := List.mem_map.mp hx
    exact ⟨e, he, hex⟩
  refine ⟨?_, ?_, e4, ?_, ?_, ?_, ?_, ?_, ?_, ?_, ?_, ?_, ?_, ?_, ?_, ?_, ?_⟩
  · -- trv
    rw [e2t, e1v, I.trv]
  · -- ndv
    rw [e1v]
    exact hndv2
  · -- dis
    intro x hx
    rw [e1v]
    rcases (e5 x).mp hx with hx1 | ⟨_, hx2⟩
    · intro hmem
      rcases List.mem_append.mp hmem with hm | hm
      · exact I.dis x (hrest_sub x hx1) hm
      · simp only [List.mem_singleton] at hm
        exact hcnr (hm ▸ hx1)
    · exact hx2
  · -- dom
    intro x
    constructor
    · intro hx
      rcases e6 x with ⟨hc1, _, _⟩ | ⟨hc1, _, _, hc4, hc5, _⟩
      · rw [hc1] at hx
        rcases (I.dom x).mp hx with hh | hh
        · exact Or.inl (by rw [e1v]; exact List.mem_append_left _ hh)
        · rcases hsplit x hh with hh2 | hh2
          · exact Or.inl (by rw [e1v, hh2]; exact List.mem_append_right _ (by simp))
          · exact Or.inr ((e5 x).mpr (Or.inl hh2))
      · exact Or.inr ((e5 x).mpr (Or.inr ⟨hc5, hc4⟩))
    · intro hx
      rcases hx with hx | hx
      · rw [e1v] at hx
        rcases List.mem_append.mp hx with hm | hm
        · rw [(hvis_unch x hm).1]
          exact (I.dom x).mpr (Or.inl hm)
        · simp only [List.mem_singleton] at hm
          rw [hm, hccur2]
          rfl
      · rcases (e5 x).mp hx with hx1 | ⟨hx1, hx2⟩
        · rcases e6 x with ⟨hc1, _, _⟩ | ⟨hc1, _, _, _, _, _⟩
          · rw [hc1]
            exact (I.dom x).mpr (Or.inr (hrest_sub x hx1))
          · rw [hc1]
            rfl
        · obtain ⟨cx, hcx, _⟩ := e7 x hx1 hx2
          rw [hcx]
          rfl
  · -- stv
    rcases I.stv with hh | hh
    · exact Or.inl (by rw [e1v]; exact List.mem_append_left _ hh)
    · rcases hsplit start hh with hh2 | hh2
      · exact Or.inl (by rw [e1v, hh2]; exact List.mem_append_right _ (by simp))
      · exact Or.inr ((e5 start).mpr (Or.inl hh2))
  · -- st0
    rcases e6 start with ⟨hc1, _, _⟩ | ⟨_, _, _, _, _, hc6⟩
    · rw [hc1]
      exact I.st0
    · exact absurd (hc6 0 I.st0) (by omega)
  · -- stf
    rcases e6 start with ⟨_, hc2, _⟩ | ⟨_, _, _, _, _, hc6⟩
    · rw [hc2]
      exact I.stf
    · exact absurd (hc6 0 I.st0) (by omega)
  · -- lnk
    intro x hx hxs
    rcases e6 x with ⟨hc1, hc2, hc3⟩ | ⟨hc1, hc2, hc3, hc4, hc5, _⟩
    · -- untouched: x was already known
      have hxold : x ∈ s.visited ∨ x ∈ s.pending := by
        rcases hx with hx | hx
        · rw [e1v] at hx
          rcases List.mem_append.mp hx with hm | hm
          · exact Or.inl hm
          · simp only [List.mem_singleton] at hm
            exact Or.inr (hm ▸ hcur)
        · exact Or.inr (hpend_old x hx hc1)
      obtain ⟨m, cm, hm1, hm2, hm3, hm4, hm5⟩ := I.lnk x hxold hxs
      refine ⟨m, cm, by rw [hc2]; exact hm1, by rw [e1v]; exact List.mem_append_left _ hm2,
        by rw [(hvis_unch m hm2).1]; exact hm3, by rw [hc1]; exact hm4, hm5⟩
    · -- rewritten: linked to current
      refine ⟨current, gc, hc2, by rw [e1v]; exact List.mem_append_right _ (by simp),
        hccur2, hc1, hedge_of_tos x hc5⟩
  · -- fsc
    intro x cx hcx
    rcases e6 x with ⟨hc1, _, hc3⟩ | ⟨hc1, _, hc3, _, _, _⟩
    · rw [hc3]
      rw [hc1] at hcx
      exact I.fsc x cx hcx
    · rw [hc1] at hcx
      have hcx2 : cx = gc + 1 := (Option.some.inj hcx).symm
      rw [hc3, hcx2]
  · -- ngv
    intro x hx
    rw [e1v] at hx
    rcases List.mem_append.mp hx with hm | hm
    · exact I.ngv x hm
    · simp only [List.mem_singleton] at hm
      rw [hm]
      exact hgoal
  · -- vis
    intro m hm
    rw [e1v] at hm
    rcases List.mem_append.mp hm with hm2 | hm2
    · obtain ⟨cm, hcm, hr, hmn⟩ := I.vis m hm2
      exact ⟨cm, by rw [(hvis_unch m hm2).1]; exact hcm, hr, hmn⟩
    · simp only [List.mem_singleton] at hm2
      subst hm2
      refine ⟨gc, hccur2, hreachc, ?_⟩
      intro k hk
      obtain ⟨q, cq, hq, hcq, hle⟩ := inv_cover I hk hcnv
      exact le_trans (hminc q hq cq hcq) hle
  · -- pnd
    intro q hq
    rcases e6 q with ⟨hc1, _, _⟩ | ⟨hc1, _, _, _, hc5, _⟩
    · obtain ⟨cq, hcq, hr⟩ := I.pnd q (hpend_old q hq hc1)
      exact ⟨cq, by rw [hc1]; exact hcq, hr⟩
    · obtain ⟨e, he, hex⟩ := hedge_of_tos q hc5
      exact ⟨gc + 1, hc1, hex ▸ hreachc.extend e he⟩
  · -- frt
    intro m hm e he hnv
    rw [e1v] at hm hnv
    rcases List.mem_append.mp hm with hm2 | hm2
    · have hnv2 : Edge.«to» e ∉ s.visited := fun hmem => hnv (List.mem_append_left _ hmem)
      have hnc : Edge.«to» e ≠ current := by
        intro hmem
        apply hnv
        rw [hmem]
        exact List.mem_append_right _ (by simp)
      obtain ⟨cm, ct, hcm, hct, hle, hpd⟩ := I.frt m hm2 e he hnv2
      have hct2 : Edge.«to» e ∈ rest := by
        rcases hsplit _ hpd with hh | hh
        · exact absurd hh hnc
        · exact hh
      rcases e6 (Edge.«to» e) with ⟨hc1, _, _⟩ | ⟨hc1, _, _, _, _, hc6⟩
      · exact ⟨cm, ct, by rw [(hvis_unch m hm2).1]; exact hcm, by rw [hc1]; exact hct, hle,
          (e5 _).mpr (Or.inl hct2)⟩
      · refine ⟨cm, gc + 1, by rw [(hvis_unch m hm2).1]; exact hcm, hc1, ?_,
          (e5 _).mpr (Or.inl hct2)⟩
        have := hc6 ct hct
        omega
    · simp only [List.mem_singleton] at hm2
      subst hm2
      obtain ⟨cx, hcx, hcxle⟩ := e7 (Edge.«to» e) (List.mem_map.mpr ⟨e, he, rfl⟩) hnv
      refine ⟨gc, cx, hccur2, hcx, hcxle, ?_⟩
      exact (e5 _).mpr (Or.inr ⟨List.mem_map.mpr ⟨e, he, rfl⟩, hnv⟩)
  · -- mono
    intro m hm q hq cm cq hcm hcq
    rw [e1v] at hm
    rcases e6 q with ⟨hc1, _, _⟩ | ⟨hc1, _, _, _, _, _⟩
    · -- q's cost untouched
      have hqold : q ∈ s.pending := hpend_old q hq hc1
      rw [hc1] at hcq
      rcases List.mem_append.mp hm with hm2 | hm2
      · exact I.mono m hm2 q hqold cm cq (by rw [← (hvis_unch m hm2).1]; exact hcm) hcq
      · simp only [List.mem_singleton] at hm2
        subst hm2
        have : cm = gc := by
          rw [hccur2] at hcm
          exact (Option.some.inj hcm).symm
        subst this
        exact hminc q hqold cq hcq
    · -- q's cost rewritten to gc + 1
      have hcq2 : cq = gc + 1 := by
        rw [hc1] at hcq
        exact (Option.some.inj hcq).symm
      subst hcq2
      rcases List.mem_append.mp hm with hm2 | hm2
      · have := I.mono m hm2 current hcur cm gc (by rw [← (hvis_unch m hm2).1]; exact hcm) hgc
        omega
      · simp only [List.mem_singleton] at hm2
        subst hm2
        have : cm = gc := by
          rw [hccur2] at hcm
          exact (Option.some.inj hcm).symm
        omega
  · -- tmono
    rw [e2t]
    rw [List.pairwise_append]
    refine ⟨?_, List.pairwise_singleton _ _, ?_⟩
    · refine I.tmono.imp_of_mem ?_
      intro a b ha hb hab ca cb hca hcb
      rw [I.trv] at ha hb
      exact hab ca cb (by rw [← (hvis_unch a ha).1]; exact hca)
        (by rw [← (hvis_unch b hb).1]; exact hcb)
    · intro a ha b hb ca cb hca hcb
      simp only [List.mem_singleton] at hb
      rw [I.trv] at ha
      rw [hb] at hcb
      have hcb2 : cb = gc := by
        rw [hccur2] at hcb
        exact (Option.some.inj hcb).symm
      rw [hcb2]
      exact I.mono a ha current hcur ca gc (by rw [← (hvis_unch a ha).1]; exact hca) hgc
  · -- bnd
    intro x cx hcx
    rw [e1v, List.length_append, List.length_singleton]
    rcases e6 x with ⟨hc1, _, _⟩ | ⟨hc1, _, _, _, _, _⟩
    · rw [hc1] at hcx
      have := I.bnd x cx hcx
      omega
    · rw [hc1] at hcx
      have hcx2 : cx = gc + 1 := (Option.some.inj hcx).symm
      have := I.bnd current gc hgc
      omega

/-- When the popped minimum satisfies the goal, its recorded cost is the
shortest goal distance, `fScore` returns exactly it (an admissible heuristic
vanishes on goal nodes), the reconstructed path runs from the goal node back to
the start with that many edges, and the pop trace is sorted by cost. -/
theorem inv_found [DecidableEq α] {g : GraphS α} {goal : α → Bool} {h : α → Nat}
    {start : α} {s : AState α}
    (hadm : Admissible g goal h)
    (I : Inv g goal h start s) {t : α} {rest : List α}
    (hsel : selectMin (fun n => (s.cost n).getD 0) s.pending = some (t, rest))
    (hgoal : goal t = true) :
    ∃ ct, s.fScore t = some ct ∧
      GoalReach g goal start ct ∧
      (∀ k, GoalReach g goal start k → ct ≤ k) ∧
      (constructPath (s.visited.length + 1) s.cameFrom t).length = ct + 1 ∧
      (constructPath (s.visited.length + 1) s.cameFrom t).head? = some t ∧
      (constructPath (s.visited.length + 1) s.cameFrom t).getLast? = some start ∧
      revPathOk g (constructPath (s.visited.length + 1) s.cameFrom t) ∧
      (s.trace ++ [t]).Pairwise (fun a b => (s.cost a).getD 0 ≤ (s.cost b).getD 0) := by
  obtain ⟨hperm, hmin⟩ := selectMin_spec _ s.pending t rest hsel
  have ht : t ∈ s.pending := hperm.mem_iff.mpr (List.mem_cons_self _ _)
  obtain ⟨ct, hct, hreach⟩ := I.pnd t ht
  have hh0 : h t = 0 := Nat.le_zero.mp (hadm t 0 t hgoal (Reaches.refl t))
  have hfs : s.fScore t = some ct := by
    have := I.fsc t ct hct
    rw [hh0, Nat.add_zero] at this
    exact this
  have hctb : ct < s.visited.length + 1 :=
    Nat.lt_succ_of_le (I.bnd t ct hct)
  obtain ⟨hlen, hhead, hlast, hrev⟩ :=
    constructPath_spec I ct t (Or.inr ht) hct (s.visited.length + 1) hctb
  refine ⟨ct, hfs, ⟨t, hgoal, hreach⟩, ?_, hlen, hhead, hlast, hrev, ?_⟩
  · intro k hk
    obtain ⟨t2, hg2, hr2⟩ := hk
    have ht2 : t2 ∉ s.visited := by
      intro hmem
      rw [I.ngv t2 hmem] at hg2
      cases hg2
    obtain ⟨q, cq, hq, hcq, hle⟩ := inv_cover I hr2 ht2
    have := hmin q hq
    rw [hct, hcq] at this
    simp only [Option.getD_some] at this
    omega
  · rw [List.pairwise_append]
    refine ⟨?_, List.pairwise_singleton _ _, ?_⟩
    · refine I.tmono.imp_of_mem ?_
      intro a b ha hb hab
      rw [I.trv] at ha hb
      obtain ⟨ca, hca⟩ := Option.isSome_iff_exists.mp ((I.dom a).mpr (Or.inl ha))
      obtain ⟨cb, hcb⟩ := Option.isSome_iff_exists.mp ((I.dom b).mpr (Or.inl hb))
      rw [hca, hcb]
      simpa using hab ca cb hca hcb
    · intro a ha b hb
      simp only [List.mem_singleton] at hb
      rw [I.trv] at ha
      obtain ⟨ca, hca⟩ := Option.isSome_iff_exists.mp ((I.dom a).mpr (Or.inl ha))
      rw [hb, hca, hct]
      simpa using I.mono a ha t ht ca ct hca hct

/-- The main induction: whenever the search run from an invariant state returns
`found`, the cost is the shortest goal distance, the path (read backwards) is a
start-to-goal walk realizing it, and the trace was popped in nondecreasing cost
order. -/
theorem runAStar_found [DecidableEq α] {g : GraphS α} {goal : α → Bool} {h : α → Nat}
    {start : α}
    (hunit : ∀ n, ∀ e ∈ g.outgoingEdges n, e.cost = 1)
    (hcmp : ∀ n, g.compareNodes n n = 0)
    (hadm : Admissible g goal h)
    (elapsed : Nat → Nat) (timeoutMs : Nat) :
    ∀ (fuel : Nat) (s : AState α), Inv g goal h start s →
      ∀ (p : List α) (co : Option Nat) (sf : AState α),
        runAStar g goal h elapsed timeoutMs fuel s = (.found p co, sf) →
        ∃ c, co = some c ∧
          GoalReach g goal start c ∧ (∀ k, GoalReach g goal start k → c ≤ k) ∧
          p.length = c + 1 ∧
          (∃ t, goal t = true ∧ p.head? = some t) ∧
          p.getLast? = some start ∧ revPathOk g p ∧
          traceSortedBy (fun n => (sf.cost n).getD 0) sf.trace := by
  intro fuel
  induction fuel with
  | zero =>
    intro s _ p co sf hrun
    simp [runAStar] at hrun
  | succ fuel ih =>
    intro s I p co sf hrun
    rw [runAStar] at hrun
    by_cases hemp : s.pending.isEmpty
    · rw [if_pos hemp] at hrun
      simp [Prod.mk.injEq] at hrun
    · rw [if_neg hemp] at hrun
      by_cases htm : timeoutMs < elapsed s.iter
      · rw [if_pos htm] at hrun
        simp [Prod.mk.injEq] at hrun
      · rw [if_neg htm] at hrun
        cases hsel : selectMin (fun n => (s.cost n).getD 0) s.pending with
        | none =>
          rw [hsel] at hrun
          simp [Prod.mk.injEq] at hrun
        | some pr =>
          obtain ⟨current, rest⟩ := pr
          rw [hsel] at hrun
          simp only [] at hrun
          by_cases hg : goal current = true
          · rw [if_pos hg] at hrun
            rw [Prod.mk.injEq] at hrun
            obtain ⟨h1, h2⟩ := hrun
            injection h1 with hp hco
            obtain ⟨ct, hfs, hgr, hmn, hlen, hhead, hlast, hrev, hpw⟩ :=
              inv_found hadm I hsel hg
            refine ⟨ct, ?_, hgr, hmn, ?_, ⟨current, hg, ?_⟩, ?_, ?_, ?_⟩
            · rw [← hco, hfs]
            · rw [← hp]
              exact hlen
            · rw [← hp]
              exact hhead
            · rw [← hp]
              exact hlast
            · rw [← hp]
              exact hrev
            · rw [← h2]
              exact hpw
          · rw [if_neg hg] at hrun
            have hg2 : goal current = false := by
              simpa using hg
            cases hexp : expand g h current (g.outgoingEdges current)
                { s with pending := rest, visited := s.visited ++ [current],
                         trace := s.trace ++ [current], iter := s.iter + 1 } with
            | error err =>
              rw [hexp] at hrun
              simp [Prod.mk.injEq] at hrun
            | ok s2 =>
              rw [hexp] at hrun
              exact ih s2 (inv_step hunit hcmp I hsel hg2 hexp) p co sf hrun

/-! ### Every `StateGraph` edge has cost 1 -/

theorem innerEdges_unit_cost (objects : ObjMap) (node : StateNode) (i : Nat) :
    ∀ (js : List Nat) (l : List (Edge StateNode)),
      innerEdges objects node i js = .ok l → ∀ e ∈ l, e.cost = 1 := by
  intro js
  induction js with
  | nil =>
    intro l hl e he
    simp only [innerEdges] at hl
    rw [← Except.ok.inj hl] at he
    simp at he
  | cons j js ih =>
    intro l hl e he
    simp only [innerEdges] at hl
    split at hl
    · exact ih l hl e he
    · split at hl
      · cases hl
      · cases hrest : innerEdges objects node i js with
        | error e2 =>
          rw [hrest] at hl
          cases hl
        | ok rest =>
          rw [hrest] at hl
          have hl2 := Except.ok.inj hl
          rw [← hl2] at he
          rcases List.mem_cons.mp he with he2 | he2
          · rw [he2]
          · exact ih rest hrest e he2
      · exact ih l hl e he

theorem outerEdges_unit_cost (objects : ObjMap) (node : StateNode) :
    ∀ (idxs : List Nat) (l : List (Edge StateNode)),
      outerEdges objects node idxs = .ok l → ∀ e ∈ l, e.cost = 1 := by
  intro idxs
  induction idxs with
  | nil =>
    intro l hl e he
    simp only [outerEdges] at hl
    rw [← Except.ok.inj hl] at he
    simp at he
  | cons i idxs ih =>
    intro l hl e he
    simp only [outerEdges] at hl
    cases hhere : innerEdges objects node i (List.range node.data.length) with
    | error e2 =>
      rw [hhere] at hl
      cases hl
    | ok here =>
      rw [hhere] at hl
      cases hmore : outerEdges objects node idxs with
      | error e2 =>
        rw [hmore] at hl
        cases hl
      | ok more =>
        rw [hmore] at hl
        have hl2 := Except.ok.inj hl
        rw [← hl2] at he
        rcases List.mem_append.mp he with he2 | he2
        · exact innerEdges_unit_cost objects node i _ here hhere e he2
        · exact ih more hmore e he2

/-- Every edge `StateGraph.outgoingEdges` ever produces has cost `1`. -/
theorem outgoingEdgesSG_unit_cost (objects : ObjMap) (node : StateNode)
    (l : List (Edge StateNode)) (hl : outgoingEdgesSG objects node = .ok l) :
    ∀ e ∈ l, e.cost = 1 := by
  intro e he
  unfold outgoingEdgesSG at hl
  split at hl
  · split at hl
    · rw [← Except.ok.inj hl] at he
      simp at he
    · simp [isValidStack, Except.map] at hl
  · exact outerEdges_unit_cost objects node _ l hl e he

/-! ## Claim C1: optimality and pop order of the search -/

/-- Claim C1 (corrected): the open set is processed in order of nondecreasing
cost-so-far `g` — the queue comparator is `cost(a) - cost(b)`, not
`f = g + h` — and, for every graph all of whose edges cost `1` (as all
`WorldStateGraph` edges do, first conjunct) with a reflexive comparator and a
consistent admissible heuristic, when the search returns a result its cost is
the unweighted shortest-path distance from the start to a goal-satisfying node
and the returned node list, which runs from the goal node *back* to the start,
realizes that distance read backwards. -/
theorem c1_pops_by_g_cost_is_shortest [DecidableEq α] (g : GraphS α) (start : α)
    (goal : α → Bool) (h : α → Nat) (elapsed : Nat → Nat) (timeout fuel : Nat)
    (hunit : ∀ n, ∀ e ∈ g.outgoingEdges n, e.cost = 1)
    (hcmp : ∀ n, g.compareNodes n n = 0)
    (hcons : Consistent g h)
    (hadm : Admissible g goal h) :
    (∀ (objects : ObjMap) (node : StateNode) (l : List (Edge StateNode)),
      outgoingEdgesSG objects node = .ok l → ∀ e ∈ l, e.cost = 1) ∧
    (∀ (p : List α) (co : Option Nat),
      (runAStar g goal h elapsed (timeout * 1000) fuel (initState start h)).1 =
        .found p co →
      ∃ c, co = some c ∧
        GoalReach g goal start c ∧ (∀ k, GoalReach g goal start k → c ≤ k) ∧
        p.length = c + 1 ∧ (∃ t, goal t = true ∧ p.head? = some t) ∧
        p.getLast? = some start ∧ revPathOk g p ∧
        traceSortedBy
          (fun n =>
            (((runAStar g goal h elapsed (timeout * 1000) fuel
                (initState start h)).2).cost n).getD 0)
          ((runAStar g goal h elapsed (timeout * 1000) fuel (initState start h)).2).trace) := by
  constructor
  · exact outgoingEdgesSG_unit_cost
  · intro p co hfound
    have hrun : runAStar g goal h elapsed (timeout * 1000) fuel (initState start h) =
        (.found p co,
         (runAStar g goal h elapsed (timeout * 1000) fuel (initState start h)).2) := by
      rw [← hfound]
    exact runAStar_found hunit hcmp hadm elapsed (timeout * 1000) fuel
      (initState start h) (inv_init g goal h start) p co _ hrun

/-- The four-node counterexample graph: edges `0 → 1`, `0 → 2`, `2 → 3`. -/
def cexGraph : GraphS (Fin 4) :=
  ⟨fun n =>
    if n = 0 then [⟨0, 1, 1⟩, ⟨0, 2, 1⟩] else if n = 2 then [⟨2, 3, 1⟩] else [],
   fun a b => if a = b then 0 else 1⟩

/-- The counterexample heuristic: `5` on the dead-end node `1`, `0` elsewhere. -/
def cexH : Fin 4 → Nat := fun n => if n = 1 then 5 else 0

/-- The counterexample goal: node `3`. -/
def cexGoal : Fin 4 → Bool := fun n => n == 3

theorem cexH_admissible : Admissible cexGraph cexGoal cexH := by
  intro n k t hg hr
  by_cases h1 : n = 1
  · subst h1
    cases hr with
    | refl =>
      simp [cexGoal] at hg
    | step e he hr2 =>
      simp [cexGraph] at he
  · have : cexH n = 0 := by simp [cexH, h1]
    rw [this]
    exact Nat.zero_le k

theorem cexH_consistent : Consistent cexGraph cexH := by
  intro n e he
  fin_cases n <;> simp_all [cexGraph, cexH]

/-- Claim C1, counterexample to the claim as stated: on `cexGraph` with the
consistent, admissible heuristic `cexH`, the search succeeds, but the pop
trace `[0, 1, 2, 3]` has `fScore` values `0, 6, 1, 2` — the open set was *not*
processed in order of lowest `f = g + h` — and the returned node list
`[3, 2, 0]` does not start at the start node `0` (it runs goal-to-start). -/
theorem c1_counterexample :
    Consistent cexGraph cexH ∧ Admissible cexGraph cexGoal cexH ∧
    (runAStar cexGraph cexGoal cexH (fun _ => 0) 10000 10 (initState 0 cexH)).1 =
      .found [3, 2, 0] (some 2) ∧
    ¬ traceSortedBy
        (fun n =>
          (((runAStar cexGraph cexGoal cexH (fun _ => 0) 10000 10
              (initState 0 cexH)).2).fScore n).getD 0)
        ((runAStar cexGraph cexGoal cexH (fun _ => 0) 10000 10 (initState 0 cexH)).2).trace ∧
    ([3, 2, 0] : List (Fin 4)).head? ≠ some 0 := by
  refine ⟨cexH_consistent, cexH_admissible, by decide, by decide, by decide⟩

/-- Witness for `c1_pops_by_g_cost_is_shortest` on the two-node graph `0 → 1`. -/
theorem c1_witness :
    (∀ n, ∀ e ∈ (⟨fun n => if n = 0 then [⟨0, 1, 1⟩] else [],
        fun a b => if a = b then 0 else 1⟩ : GraphS (Fin 2)).outgoingEdges n,
      e.cost = 1) ∧
    ((runAStar (⟨fun n => if n = 0 then [⟨0, 1, 1⟩] else [],
        fun a b => if a = b then 0 else 1⟩ : GraphS (Fin 2)) (fun n => n == 1)
        (fun _ => 0) (fun _ => 0) 10000 10 (initState 0 (fun _ => 0))).1 =
      .found [1, 0] (some 1)) ∧
    (∃ c, (some 1 : Option Nat) = some c ∧
      GoalReach (⟨fun n => if n = 0 then [⟨0, 1, 1⟩] else [],
        fun a b => if a = b then 0 else 1⟩ : GraphS (Fin 2)) (fun n => n == 1) 0 c ∧
      (∀ k, GoalReach (⟨fun n => if n = 0 then [⟨0, 1, 1⟩] else [],
        fun a b => if a = b then 0 else 1⟩ : GraphS (Fin 2)) (fun n => n == 1) 0 k → c ≤ k) ∧
      ([1, 0] : List (Fin 2)).length = c + 1 ∧
      (∃ t, (fun n => n == 1 : Fin 2 → Bool) t = true ∧
        ([1, 0] : List (Fin 2)).head? = some t) ∧
      ([1, 0] : List (Fin 2)).getLast? = some 0 ∧
      revPathOk (⟨fun n => if n = 0 then [⟨0, 1, 1⟩] else [],
        fun a b => if a = b then 0 else 1⟩ : GraphS (Fin 2)) [1, 0] ∧
      traceSortedBy
        (fun n =>
          (((runAStar (⟨fun n => if n = 0 then [⟨0, 1, 1⟩] else [],
              fun a b => if a = b then 0 else 1⟩ : GraphS (Fin 2)) (fun n => n == 1)
              (fun _ => 0) (fun _ => 0) 10000 10 (initState 0 (fun _ => 0))).2).cost n).getD 0)
        ((runAStar (⟨fun n => if n = 0 then [⟨0, 1, 1⟩] else [],
            fun a b => if a = b then 0 else 1⟩ : GraphS (Fin 2)) (fun n => n == 1)
            (fun _ => 0) (fun _ => 0) 10000 10 (initState 0 (fun _ => 0))).2).trace) := by
  refine ⟨by decide, by decide, ?_⟩
  exact (c1_pops_by_g_cost_is_shortest
      (⟨fun n => if n = 0 then [⟨0, 1, 1⟩] else [],
        fun a b => if a = b then 0 else 1⟩ : GraphS (Fin 2)) 0 (fun n => n == 1)
      (fun _ => 0) (fun _ => 0) 10 10
      (by decide) (by decide)
      (fun n e _ => Nat.zero_le _)
      (fun n k t _ _ => Nat.zero_le k)).2 [1, 0] (some 1) (by decide)

/-! ## Claims C2 and C3: the failure outcomes and the order of the checks -/

/-- Claim C2 (corrected): both failure modes return the same value.  When the
deadline has already passed at the first poll the search returns `undefined`;
when the open set empties without reaching a goal (here: a graph with no
edges and a non-goal start) the search also returns `undefined`.  Success is
distinguishable from failure, but the two failures are conflated. -/
theorem c2_failures_conflated [DecidableEq α] (g : GraphS α) (start : α)
    (goal : α → Bool) (h : α → Nat) (elapsed : Nat → Nat) (timeout fuel : Nat) :
    (0 < fuel → timeout * 1000 < elapsed 0 →
      aStarSearch g start goal h elapsed timeout fuel = .undef) ∧
    ((∀ n, g.outgoingEdges n = []) → goal start = false → elapsed 0 ≤ timeout * 1000 →
      2 ≤ fuel → aStarSearch g start goal h elapsed timeout fuel = .undef) := by
  constructor
  · intro hfuel htrip
    obtain ⟨f, rfl⟩ : ∃ f, fuel = f + 1 := ⟨fuel - 1, by omega⟩
    unfold aStarSearch
    simp [runAStar, initState, htrip]
  · intro hedges hgoal hpoll hfuel
    obtain ⟨f, rfl⟩ : ∃ f, fuel = f + 2 := ⟨fuel - 2, by omega⟩
    unfold aStarSearch
    simp only [runAStar, initState, List.isEmpty_cons, Bool.false_eq_true, if_false,
      Nat.not_lt.mpr hpoll, selectMin, hgoal, hedges, expand, List.isEmpty_nil]
    simp [expand, hedges, hgoal, Nat.not_lt.mpr hpoll, runAStar]

/-- Claim C2, counterexample to the claim as stated: on a one-node edgeless
graph, exhausting the open set without a goal returns `undef`, and tripping
the deadline at the first poll returns the same `undef` — the two failure
outcomes are not distinguishable from each other. -/
theorem c2_counterexample :
    aStarSearch (⟨fun _ => [], fun a b => if a = b then 0 else 1⟩ : GraphS (Fin 1)) 0
      (fun _ => false) (fun _ => 0) (fun _ => 0) 10 5 = .undef ∧
    aStarSearch (⟨fun _ => [], fun a b => if a = b then 0 else 1⟩ : GraphS (Fin 1)) 0
      (fun _ => false) (fun _ => 0) (fun _ => 1) 0 5 = .undef := by
  exact ⟨rfl, rfl⟩

/-- Witness for `c2_failures_conflated` at concrete inputs. -/
theorem c2_witness :
    aStarSearch (⟨fun _ => [], fun a b => if a = b then 0 else 1⟩ : GraphS (Fin 1)) 0
      (fun _ => true) (fun _ => 0) (fun _ => 5) 0 3 = .undef ∧
    aStarSearch (⟨fun _ => [], fun a b => if a = b then 0 else 1⟩ : GraphS (Fin 1)) 0
      (fun _ => false) (fun _ => 0) (fun _ => 0) 10 3 = .undef :=
  ⟨(c2_failures_conflated (⟨fun _ => [], fun a b => if a = b then 0 else 1⟩ : GraphS (Fin 1))
      0 (fun _ => true) (fun _ => 0) (fun _ => 5) 0 3).1 (by omega) (by omega),
   (c2_failures_conflated (⟨fun _ => [], fun a b => if a = b then 0 else 1⟩ : GraphS (Fin 1))
      0 (fun _ => false) (fun _ => 0) (fun _ => 0) 10 3).2 (fun _ => rfl) rfl (by omega)
      (by omega)⟩

/-- Claim C3 (corrected): the deadline poll precedes the goal check.  If the
clock has already passed the deadline at the first poll, the search returns
`undefined` even when the start satisfies the goal; otherwise a goal-satisfying
start returns the one-node path `[start]` — hence an empty action sequence —
with cost `fScore(start) = h(start)` before any successor expansion, which is
`0` for an admissible heuristic. -/
theorem c3_goal_at_start_after_poll [DecidableEq α] (g : GraphS α) (start : α)
    (goal : α → Bool) (h : α → Nat) (elapsed : Nat → Nat) (timeout fuel : Nat)
    (hfuel : 0 < fuel) (hgoal : goal start = true) :
    (timeout * 1000 < elapsed 0 →
      aStarSearch g start goal h elapsed timeout fuel = .undef) ∧
    (elapsed 0 ≤ timeout * 1000 →
      aStarSearch g start goal h elapsed timeout fuel = .found [start] (some (h start))) ∧
    (elapsed 0 ≤ timeout * 1000 → Admissible g goal h →
      aStarSearch g start goal h elapsed timeout fuel = .found [start] (some 0)) := by
  obtain ⟨f, rfl⟩ : ∃ f, fuel = f + 1 := ⟨fuel - 1, by omega⟩
  refine ⟨?_, ?_, ?_⟩
  · intro htrip
    unfold aStarSearch
    simp [runAStar, initState, htrip]
  · intro hpoll
    unfold aStarSearch
    simp only [runAStar, initState, List.isEmpty_cons, Bool.false_eq_true, if_false,
      Nat.not_lt.mpr hpoll, selectMin, hgoal, if_true]
    simp [constructPath, upd]
  · intro hpoll hadm
    have h0 : h start = 0 :=
      Nat.le_zero.mp (hadm start 0 start hgoal (Reaches.refl start))
    unfold aStarSearch
    simp only [runAStar, initState, List.isEmpty_cons, Bool.false_eq_true, if_false,
      Nat.not_lt.mpr hpoll, selectMin, hgoal, if_true]
    simp [constructPath, upd, h0]

/-- Claim C3, counterexample to the claim as stated: the start satisfies the
goal, the deadline is `0`, but 7 ms have elapsed at the first poll, and the
search returns the failure value instead of an empty path with cost `0` —
because the deadline poll happens *before* the goal check. -/
theorem c3_counterexample :
    (fun _ => true : Fin 1 → Bool) 0 = true ∧
    aStarSearch (⟨fun _ => [], fun a b => if a = b then 0 else 1⟩ : GraphS (Fin 1)) 0
      (fun _ => true) (fun _ => 0) (fun _ => 7) 0 5 = .undef := by
  exact ⟨rfl, rfl⟩

/-- Witness for `c3_goal_at_start_after_poll` at concrete inputs. -/
theorem c3_witness :
    (fun _ => true : Fin 1 → Bool) 0 = true ∧
    aStarSearch (⟨fun _ => [], fun a b => if a = b then 0 else 1⟩ : GraphS (Fin 1)) 0
      (fun _ => true) (fun n => if n = 0 then 3 else 0) (fun _ => 0) 0 5 =
      .found [0] (some 3) :=
  ⟨rfl,
    (c3_goal_at_start_after_poll
        (⟨fun _ => [], fun a b => if a = b then 0 else 1⟩ : GraphS (Fin 1)) 0
        (fun _ => true) (fun n => if n = 0 then 3 else 0) (fun _ => 0) 0 5
        (by omega) rfl).2.1 (by omega)⟩

end Shrdlite
